import Mathlib

/-!
# Plain-state storage with account-identifier indirection

A shallow embedding of `core/state/nf_plain_state_reader.go` and
`core/state/nf_plain_state_writer.go`.

* Byte slices are lists of naturals (each byte a value below 256); a `nil`
  slice returned by the store is `none`, a non-nil slice is `some b`.
* `uint64` and `uint256` values are naturals; encoders reduce them modulo
  `2 ^ 64` byte by byte.
* A Go function returning `(T, error)` is a pair `T × Option Err`; a method
  mutating the writer returns the new writer together with the `error`.
* The key-value store, the account codec, the change-set recorder and the
  accumulator live outside the two files; they are modelled from the
  specification (section 6) and marked as such.
-/

namespace NfPlainState

/-- A byte slice. -/
abbrev Bytes := List Nat

/-- The constant `common.AddressLength`. -/
def AddressLength : Nat := 20

/-- The constant `common.IncarnationLength`. -/
def IncarnationLength : Nat := 8

/-- The constant `common.HashLength`. -/
def HashLength : Nat := 32

/-! ## Go slice primitives -/

/-- Go `make([]byte, n)`: `n` zero bytes. -/
def make (n : Nat) : Bytes := List.replicate n 0

/-- Go `copy(dst, src)`: the first `min (len dst) (len src)` bytes of `dst`
are overwritten with those of `src`; the length of `dst` is kept. -/
def copy (dst src : Bytes) : Bytes := src.take dst.length ++ dst.drop src.length

/-- A write through the sub-slice `b[off:]`: `f` acts on the tail and the
head of `b` is untouched. -/
def onTail (b : Bytes) (off : Nat) (f : Bytes → Bytes) : Bytes :=
  b.take off ++ f (b.drop off)

/-- The eight big-endian bytes of a `uint64`. -/
def be64 (v : Nat) : Bytes :=
  [v / 2 ^ 56 % 256, v / 2 ^ 48 % 256, v / 2 ^ 40 % 256, v / 2 ^ 32 % 256,
   v / 2 ^ 24 % 256, v / 2 ^ 16 % 256, v / 2 ^ 8 % 256, v % 256]

/-- Go `binary.BigEndian.PutUint64(b, v)`: the first eight bytes of `b`
become the big-endian bytes of `v` (every call site passes at least eight
bytes, so the bounds check of the library never fires). -/
def PutUint64 (b : Bytes) (v : Nat) : Bytes := copy b (be64 v)

/-- Go `binary.BigEndian.Uint64(b)`: reads the first eight bytes; `none`
stands for the run-time panic on a slice shorter than eight bytes. -/
def Uint64 (b : Bytes) : Option Nat :=
  match b with
  | b0 :: b1 :: b2 :: b3 :: b4 :: b5 :: b6 :: b7 :: _ =>
    some (b0 * 2 ^ 56 + b1 * 2 ^ 48 + b2 * 2 ^ 40 + b3 * 2 ^ 32
      + b4 * 2 ^ 24 + b5 * 2 ^ 16 + b6 * 2 ^ 8 + b7)
  | _ => none

/-- The bytes of a possibly-nil slice (a `nil` slice has no bytes). -/
def bytesOf (b : Option Bytes) : Bytes := b.getD []

/-- The 32-byte big-endian form of a `uint256` (`Int.Bytes32`). -/
def Bytes32 (v : Nat) : Bytes :=
  (List.range 32).map (fun k => v / 256 ^ (31 - k) % 256)

/-- The method `uint256.Int.Bytes`: big-endian bytes without leading zero
bytes, so the value zero has the empty encoding. -/
def uint256Bytes (v : Nat) : Bytes := (Bytes32 v).dropWhile (fun b => b == 0)

/-! ## The key-value store -/

/-- The tables (`kv.AccountID`, `kv.PlainState`, `kv.Code`,
`kv.PlainContractCode`, `kv.IncarnationMap`). -/
inductive Table where
  | AccountID
  | PlainState
  | Code
  | PlainContractCode
  | IncarnationMap
  deriving DecidableEq, Repr

/-- An error value. -/
structure Err where
  code : Nat
  deriving DecidableEq, Repr

/-- Modelled from the spec: the store handle `db` (`kv.Getter` with
`Put`, `Delete` and `IncrementSequence`), which is not part of the two
files. `data` holds the entries of every table, `seq` counts the total
amount added to the sequence of each table, and the four `Fault` fields say
which calls fail with an I/O error. -/
structure DB where
  data : Table → Bytes → Option Bytes
  seq : Table → Nat
  getFault : Table → Bytes → Option Err
  putFault : Table → Bytes → Bytes → Option Err
  delFault : Table → Bytes → Option Err
  seqFault : Table → Option Err

namespace DB

/-- Modelled from the spec: `get(table, key) -> bytes|empty`; a failing get
returns `(nil, err)`. -/
def GetOne (db : DB) (t : Table) (k : Bytes) : Option Bytes × Option Err :=
  match db.getFault t k with
  | some err => (none, some err)
  | none => (db.data t k, none)

/-- Modelled from the spec: `put(table, key, value)`. -/
def Put (db : DB) (t : Table) (k v : Bytes) : DB × Option Err :=
  match db.putFault t k v with
  | some err => (db, some err)
  | none =>
    ({ db with data := fun t1 k1 => if t1 = t ∧ k1 = k then some v else db.data t1 k1 },
      none)

/-- Modelled from the spec: `delete(table, key)`. -/
def Delete (db : DB) (t : Table) (k : Bytes) : DB × Option Err :=
  match db.delFault t k with
  | some err => (db, some err)
  | none =>
    ({ db with data := fun t1 k1 => if t1 = t ∧ k1 = k then none else db.data t1 k1 },
      none)

/-- Modelled from the spec: `incrementSequence(table, n) -> uint64`, a
per-table monotonically increasing counter. The call returns the counter
before the increment as a `uint64`, so the first value handed out on an
empty store is 0; `seq` itself is kept unreduced so that a wrap-around of
the 64-bit counter is visible as `seq` exceeding `2 ^ 64`. -/
def IncrementSequence (db : DB) (t : Table) (amount : Nat) : DB × Nat × Option Err :=
  match db.seqFault t with
  | some err => (db, 0, some err)
  | none =>
    ({ db with seq := fun t1 => if t1 = t then db.seq t + amount else db.seq t1 },
      db.seq t % 2 ^ 64, none)

/-- The store with no entries, all sequences at zero and no failing call. -/
def empty : DB where
  data := fun _ _ => none
  seq := fun _ => 0
  getFault := fun _ _ => none
  putFault := fun _ _ _ => none
  delFault := fun _ _ => none
  seqFault := fun _ => none

end DB

/-! ## Accounts and the injected collaborators -/

/-- Modelled from the spec: the account record `accounts.Account`
(balance, nonce, code hash, incarnation); only `Incarnation` is read by the
writer. -/
structure Account where
  Initialised : Bool
  Nonce : Nat
  Balance : Nat
  Root : Bytes
  CodeHash : Bytes
  Incarnation : Nat
  deriving DecidableEq, Repr

/-- Modelled from the spec: the external account codec
(`EncodeForStorage` into a buffer of `EncodingLengthForStorage` bytes, and
`DecodeForStorage`). -/
structure Codec where
  EncodeForStorage : Account → Bytes
  DecodeForStorage : Bytes → Except Err Account

/-- The five mutation kinds, with the arguments of the call. They serve
both as the calls made into the change-set recorder and as the operations
of the writer. -/
inductive Call where
  | UpdateAccountData (address : Bytes) (original account : Account)
  | UpdateAccountCode (address : Bytes) (incarnation : Nat) (codeHash code : Bytes)
  | DeleteAccount (address : Bytes) (original : Account)
  | WriteAccountStorage (address : Bytes) (incarnation : Nat) (key : Bytes)
      (original value : Nat)
  | CreateContract (address : Bytes)
  deriving DecidableEq, Repr

/-- Modelled from the spec: the optional change-set recorder
(`ChangeSetWriter`). It keeps the calls it accepted and fails on the calls
selected by `failOn`. -/
structure ChangeSetWriter where
  recorded : List Call
  failOn : Call → Option Err

/-- A notification sent to the accumulator. -/
inductive Notice where
  | ChangeAccount (address : Bytes) (incarnation : Nat) (data : Bytes)
  | ChangeCode (address : Bytes) (incarnation : Nat) (code : Bytes)
  | ChangeStorage (address : Bytes) (incarnation : Nat) (key data : Bytes)
  | DeleteAccount (address : Bytes)
  deriving DecidableEq, Repr

/-- Modelled from the spec: the optional change accumulator
(`shards.Accumulator`), a sink of notifications. -/
structure Accumulator where
  notices : List Notice
  deriving DecidableEq, Repr

/-- The canonical empty-code hash `emptyCodeHash` (Keccak-256 of the empty
input), a package variable declared outside the two files. -/
def emptyCodeHash : Bytes :=
  [0xc5, 0xd2, 0x46, 0x01, 0x86, 0xf7, 0x23, 0x3c, 0x92, 0x7e, 0x7d, 0xb2, 0xdc, 0xc7,
   0x03, 0xc0, 0xe5, 0x00, 0xb6, 0x53, 0xca, 0x82, 0x27, 0x3b, 0x7b, 0xfa, 0xd8, 0x04,
   0x5d, 0x85, 0xa4, 0x70]

/-- Modelled from the spec: `dbutils.PlainGenerateStoragePrefix`, the key
of the contract-code index: the address followed by the big-endian
incarnation. -/
def PlainGenerateStoragePrefix (address : Bytes) (incarnation : Nat) : Bytes :=
  let pfx := make (20 + 8)
  let pfx := copy pfx address
  onTail pfx 20 (fun t => PutUint64 t incarnation)

/-! ## Reader (`nf_plain_state_reader.go`) -/

/-- The composite key built by `ReadAccountStorage` (reader, lines 51-54). -/
def readerCompositeKey (encID : Bytes) (incarnation : Nat) (key : Bytes) : Bytes :=
  let compositeKey := make (8 + IncarnationLength + HashLength)
  let compositeKey := copy compositeKey encID
  let compositeKey := onTail compositeKey AddressLength (fun t => PutUint64 t incarnation)
  onTail compositeKey (AddressLength + IncarnationLength) (fun t => copy t key)

/-- The method `NfPlainStateReader.ReadAccountData`. -/
def ReadAccountData (c : Codec) (db : DB) (address : Bytes) : Option Account × Option Err :=
  match db.GetOne .AccountID address with
  | (_, some err) => (none, some err)
  | (encID, none) =>
    match db.GetOne .PlainState (bytesOf encID) with
    | (_, some err) => (none, some err)
    | (enc, none) =>
      if (bytesOf enc).length = 0 then (none, none)
      else
        match c.DecodeForStorage (bytesOf enc) with
        | .error err => (none, some err)
        | .ok a => (some a, none)

/-- The method `NfPlainStateReader.ReadAccountStorage`. -/
def ReadAccountStorage (db : DB) (address : Bytes) (incarnation : Nat) (key : Bytes) :
    Option Bytes × Option Err :=
  match db.GetOne .AccountID address with
  | (_, some err) => (none, some err)
  | (encID, none) =>
    let compositeKey := readerCompositeKey (bytesOf encID) incarnation key
    match db.GetOne .PlainState compositeKey with
    | (_, some err) => (none, some err)
    | (enc, none) =>
      if (bytesOf enc).length = 0 then (none, none)
      else (enc, none)

/-- The method `NfPlainStateReader.ReadAccountCode`: the length of the
returned code is tested before the error of the get is looked at. -/
def ReadAccountCode (db : DB) (_address : Bytes) (_incarnation : Nat) (codeHash : Bytes) :
    Option Bytes × Option Err :=
  if codeHash = emptyCodeHash then (none, none)
  else
    match db.GetOne .Code codeHash with
    | (code, err) =>
      if (bytesOf code).length = 0 then (none, none)
      else (code, err)

/-- The method `NfPlainStateReader.ReadAccountCodeSize`. -/
def ReadAccountCodeSize (db : DB) (address : Bytes) (incarnation : Nat) (codeHash : Bytes) :
    Nat × Option Err :=
  match ReadAccountCode db address incarnation codeHash with
  | (code, err) => ((bytesOf code).length, err)

/-- The method `NfPlainStateReader.ReadAccountIncarnation`; the outer
`none` is the run-time panic of `Uint64` on a stored value of one to seven
bytes. -/
def ReadAccountIncarnation (db : DB) (address : Bytes) : Option (Nat × Option Err) :=
  match db.GetOne .IncarnationMap address with
  | (_, some err) => some (0, some err)
  | (b, none) =>
    if (bytesOf b).length = 0 then some (0, none)
    else (Uint64 (bytesOf b)).map (fun v => (v, none))

/-! ## Writer (`nf_plain_state_writer.go`) -/

/-- The writer: the store handle, the optional change-set recorder `csw`
and the optional `accumulator`. -/
structure NfPlainStateWriter where
  db : DB
  csw : Option ChangeSetWriter
  accumulator : Option Accumulator

namespace NfPlainStateWriter

/-- The guarded recorder call that opens every writer method:
`if w.csw != nil { if err := w.csw.M(...); err != nil { return err } }`.
Modelled from the spec: an accepted call is appended to the log of the
recorder, a refused call leaves the recorder as it was. -/
def record (w : NfPlainStateWriter) (call : Call) : NfPlainStateWriter × Option Err :=
  match w.csw with
  | none => (w, none)
  | some r =>
    match r.failOn call with
    | some err => (w, some err)
    | none => ({ w with csw := some { r with recorded := r.recorded ++ [call] } }, none)

/-- The guarded accumulator call `if w.accumulator != nil { ... }`. -/
def notify (w : NfPlainStateWriter) (n : Notice) : NfPlainStateWriter :=
  match w.accumulator with
  | none => w
  | some a => { w with accumulator := some { notices := a.notices ++ [n] } }

end NfPlainStateWriter

/-- The block that the writer repeats verbatim in `UpdateAccountData`
(lines 59-74), `DeleteAccount` (lines 105-120) and `WriteAccountStorage`
(lines 146-161): look the address up in `kv.AccountID` and, when the result
is `nil`, take the next sequence value, encode it on eight bytes and store
it under the address. Returns the store, `encID` and the error. -/
def resolveOrCreate (db : DB) (address : Bytes) : DB × Bytes × Option Err :=
  match db.GetOne .AccountID address with
  | (_, some err) => (db, [], some err)
  | (some encID, none) => (db, encID, none)
  | (none, none) =>
    match db.IncrementSequence .AccountID 1 with
    | (db1, _, some err) => (db1, [], some err)
    | (db1, id, none) =>
      let encID := PutUint64 (make 8) id
      match db1.Put .AccountID address encID with
      | (db2, some err) => (db2, [], some err)
      | (db2, none) => (db2, encID, none)

/-- The composite key built by `WriteAccountStorage` (writer, lines 163-166). -/
def writerCompositeKey (encID : Bytes) (incarnation : Nat) (key : Bytes) : Bytes :=
  let compositeKey := make (8 + IncarnationLength + HashLength)
  let compositeKey := copy compositeKey encID
  let compositeKey := onTail compositeKey 8 (fun t => PutUint64 t incarnation)
  onTail compositeKey (8 + IncarnationLength) (fun t => copy t key)

/-- The method `NfPlainStateWriter.UpdateAccountData`. -/
def UpdateAccountData (c : Codec) (w : NfPlainStateWriter) (address : Bytes)
    (original account : Account) : NfPlainStateWriter × Option Err :=
  match w.record (.UpdateAccountData address original account) with
  | (w1, some err) => (w1, some err)
  | (w1, none) =>
    let value := c.EncodeForStorage account
    let w2 := w1.notify (.ChangeAccount address account.Incarnation value)
    match resolveOrCreate w2.db address with
    | (db1, _, some err) => ({ w2 with db := db1 }, some err)
    | (db1, encID, none) =>
      match db1.Put .PlainState encID value with
      | (db2, err) => ({ w2 with db := db2 }, err)

/-- The method `NfPlainStateWriter.UpdateAccountCode`. -/
def UpdateAccountCode (w : NfPlainStateWriter) (address : Bytes) (incarnation : Nat)
    (codeHash code : Bytes) : NfPlainStateWriter × Option Err :=
  match w.record (.UpdateAccountCode address incarnation codeHash code) with
  | (w1, some err) => (w1, some err)
  | (w1, none) =>
    let w2 := w1.notify (.ChangeCode address incarnation code)
    match w2.db.Put .Code codeHash code with
    | (db1, some err) => ({ w2 with db := db1 }, some err)
    | (db1, none) =>
      match db1.Put .PlainContractCode (PlainGenerateStoragePrefix address incarnation)
          codeHash with
      | (db2, err) => ({ w2 with db := db2 }, err)

/-- The method `NfPlainStateWriter.DeleteAccount`. -/
def DeleteAccount (w : NfPlainStateWriter) (address : Bytes) (original : Account) :
    NfPlainStateWriter × Option Err :=
  match w.record (.DeleteAccount address original) with
  | (w1, some err) => (w1, some err)
  | (w1, none) =>
    let w2 := w1.notify (.DeleteAccount address)
    match resolveOrCreate w2.db address with
    | (db1, _, some err) => ({ w2 with db := db1 }, some err)
    | (db1, encID, none) =>
      match db1.Delete .PlainState encID with
      | (db2, some err) => ({ w2 with db := db2 }, some err)
      | (db2, none) =>
        if original.Incarnation > 0 then
          match db2.Put .IncarnationMap address (PutUint64 (make 8) original.Incarnation) with
          | (db3, some err) => ({ w2 with db := db3 }, some err)
          | (db3, none) => ({ w2 with db := db3 }, none)
        else ({ w2 with db := db2 }, none)

/-- The method `NfPlainStateWriter.WriteAccountStorage`. -/
def WriteAccountStorage (w : NfPlainStateWriter) (address : Bytes) (incarnation : Nat)
    (key : Bytes) (original value : Nat) : NfPlainStateWriter × Option Err :=
  match w.record (.WriteAccountStorage address incarnation key original value) with
  | (w1, some err) => (w1, some err)
  | (w1, none) =>
    if original = value then (w1, none)
    else
      match resolveOrCreate w1.db address with
      | (db1, _, some err) => ({ w1 with db := db1 }, some err)
      | (db1, encID, none) =>
        let compositeKey := writerCompositeKey encID incarnation key
        let v := uint256Bytes value
        let w2 := ({ w1 with db := db1 } : NfPlainStateWriter).notify
          (.ChangeStorage address incarnation key v)
        if v.length = 0 then
          match w2.db.Delete .PlainState compositeKey with
          | (db2, err) => ({ w2 with db := db2 }, err)
        else
          match w2.db.Put .PlainState compositeKey v with
          | (db2, err) => ({ w2 with db := db2 }, err)

/-- The method `NfPlainStateWriter.CreateContract`. -/
def CreateContract (w : NfPlainStateWriter) (address : Bytes) :
    NfPlainStateWriter × Option Err :=
  match w.record (.CreateContract address) with
  | (w1, some err) => (w1, some err)
  | (w1, none) => (w1, none)

/-- One writer operation, selected by the mutation kind. -/
def step (c : Codec) (w : NfPlainStateWriter) : Call → NfPlainStateWriter × Option Err
  | .UpdateAccountData address original account =>
    UpdateAccountData c w address original account
  | .UpdateAccountCode address incarnation codeHash code =>
    UpdateAccountCode w address incarnation codeHash code
  | .DeleteAccount address original => DeleteAccount w address original
  | .WriteAccountStorage address incarnation key original value =>
    WriteAccountStorage w address incarnation key original value
  | .CreateContract address => CreateContract w address

/-- The writer after a sequence of operations, each of which may succeed or
fail; a failed operation keeps whatever it had already written. -/
def run (c : Codec) (w : NfPlainStateWriter) : List Call → NfPlainStateWriter
  | [] => w
  | op :: ops => run c (step c w op).1 ops

/-- The address an operation is issued for. -/
def Call.address : Call → Bytes
  | .UpdateAccountData address _ _ => address
  | .UpdateAccountCode address _ _ _ => address
  | .DeleteAccount address _ => address
  | .WriteAccountStorage address _ _ _ _ => address
  | .CreateContract address => address

/-- A store in which every table is empty and every sequence is at zero;
its calls may still fail. -/
def DB.IsEmpty (db : DB) : Prop :=
  (∀ t k, db.data t k = none) ∧ ∀ t, db.seq t = 0

/-- The writers reachable from an empty store by writer operations, for any
recorder and accumulator. -/
inductive Reachable (c : Codec) : NfPlainStateWriter → Prop where
  | init (w : NfPlainStateWriter) (h : w.db.IsEmpty) : Reachable c w
  | step (w : NfPlainStateWriter) (op : Call) (h : Reachable c w) :
      Reachable c (step c w op).1

/-- A writer over the empty store with no recorder and no accumulator. -/
def emptyWriter : NfPlainStateWriter where
  db := DB.empty
  csw := none
  accumulator := none

/-- A writer over the empty store with a recorder that accepts every call
and an accumulator that has received nothing yet. -/
def recordingWriter : NfPlainStateWriter where
  db := DB.empty
  csw := some { recorded := [], failOn := fun _ => none }
  accumulator := some { notices := [] }

/-- The address `0xaa…aa`. -/
def addrA : Bytes := List.replicate 20 0xaa

/-- The address `0xbb…bb`. -/
def addrB : Bytes := List.replicate 20 0xbb

/-- The all-zero storage slot. -/
def slot0 : Bytes := List.replicate 32 0

/-- The store after the sequence of `kv.AccountID` advanced by one. -/
def DB.bumped (db : DB) : DB :=
  { db with seq := fun t1 => if t1 = Table.AccountID then db.seq .AccountID + 1 else db.seq t1 }

/-- The store after a fresh identifier was allocated and stored for
`address`. -/
def DB.allocated (db : DB) (address : Bytes) : DB :=
  { db.bumped with
    data := fun t1 k1 =>
      if t1 = Table.AccountID ∧ k1 = address then some (be64 (db.seq .AccountID))
      else db.data t1 k1 }

/-- The effect of one writer operation issued for `address` on the identifier
registry (the table `kv.AccountID` and its sequence): either both are as
before, or the address had no mapping, the sequence advanced by one and the
table either is as before (the put of the mapping failed) or gained the
mapping of `address` to the old sequence value. -/
def RegistryStep (db db1 : DB) (address : Bytes) : Prop :=
  (db1.data .AccountID = db.data .AccountID ∧ db1.seq .AccountID = db.seq .AccountID) ∨
  (db.data .AccountID address = none ∧ db1.seq .AccountID = db.seq .AccountID + 1 ∧
    (db1.data .AccountID = db.data .AccountID ∨
      db1.data .AccountID =
        fun k => if k = address then some (be64 (db.seq .AccountID)) else db.data .AccountID k))

/-- The invariant of the identifier registry: every stored identifier is the
encoding of a sequence value already handed out, and two addresses never
hold the same sequence value. -/
def RegistryInv (db : DB) : Prop :=
  ∃ g : Bytes → Nat,
    (∀ a id, db.data .AccountID a = some id → g a < db.seq .AccountID ∧ id = be64 (g a)) ∧
    (∀ a b ida idb, db.data .AccountID a = some ida → db.data .AccountID b = some idb →
      g a = g b → a = b)

/-- A small account codec used for the concrete instances: four header
fields followed by the 32-byte root and the 32-byte code hash. -/
def sampleCodec : Codec where
  EncodeForStorage := fun a =>
    [if a.Initialised then 1 else 0, a.Nonce, a.Balance, a.Incarnation] ++ a.Root ++ a.CodeHash
  DecodeForStorage := fun b =>
    match b with
    | i :: n :: bal :: inc :: rest =>
      if rest.length = 64 then
        .ok { Initialised := i != 0, Nonce := n, Balance := bal, Root := rest.take 32,
              CodeHash := rest.drop 32, Incarnation := inc }
      else .error ⟨1⟩
    | _ => .error ⟨1⟩

/-- An account of incarnation `inc` with nonce 1 and balance 7. -/
def sampleAccount (inc : Nat) : Account where
  Initialised := true
  Nonce := 1
  Balance := 7
  Root := List.replicate 32 0
  CodeHash := emptyCodeHash
  Incarnation := inc

/-- The storage slot whose bytes 4 to 11 are the big-endian number 1 and
whose other bytes are zero. -/
def slotX : Bytes := List.replicate 4 0 ++ be64 1 ++ List.replicate 20 0

/-- A store in which every get on the code table fails with error 5. -/
def codeFaultDB : DB :=
  { DB.empty with getFault := fun t _ => if t = Table.Code then some ⟨5⟩ else none }

/-- Every key of the plain-state table that holds an entry has eight bytes
(an account record under its identifier) or 48 bytes (a storage entry
under its composite key). -/
def PlainKeysInv (db : DB) : Prop :=
  ∀ k v, db.data .PlainState k = some v → k.length = 8 ∨ k.length = 48

/-- A writer over a store in which `0xbb…bb` holds the identifier 0 and the
storage value 9 at incarnation 1 under the all-zero slot, while the
sequence of `kv.AccountID` is still at 0. -/
def staleSeqWriter : NfPlainStateWriter where
  db :=
    { DB.empty with
      data := fun t k =>
        if t = Table.AccountID ∧ k = addrB then some (be64 0)
        else if t = Table.PlainState ∧ k = be64 0 ++ be64 1 ++ slot0 then some [9]
        else none }
  csw := none
  accumulator := none

/-- A writer over the empty store whose recorder refuses every call with
error 9. -/
def refusingWriter : NfPlainStateWriter where
  db := DB.empty
  csw := some { recorded := [], failOn := fun _ => some ⟨9⟩ }
  accumulator := some { notices := [] }

end NfPlainState

/-! ## Basic facts about the primitives -/

namespace NfPlainState

theorem be64_length (v : Nat) : (be64 v).length = 8 := rfl

theorem PutUint64_make8 (v : Nat) : PutUint64 (make 8) v = be64 v := by
  simp [PutUint64, copy, make, be64]

theorem Uint64_be64 (v : Nat) : Uint64 (be64 v) = some (v % 2 ^ 64) := by
  simp only [be64, Uint64, Option.some.injEq]
  omega

theorem be64_mod (v : Nat) : be64 (v % 2 ^ 64) = be64 v := by
  have h := Uint64_be64 v
  simp only [be64, List.cons.injEq, and_true]
  refine ⟨?_, ?_, ?_, ?_, ?_, ?_, ?_, ?_⟩ <;> omega

theorem be64_inj {a b : Nat} (ha : a < 2 ^ 64) (hb : b < 2 ^ 64) (h : be64 a = be64 b) :
    a = b := by
  have h1 := Uint64_be64 a
  have h2 := Uint64_be64 b
  rw [h, h2] at h1
  have h3 := Option.some.inj h1
  rw [Nat.mod_eq_of_lt ha, Nat.mod_eq_of_lt hb] at h3
  exact h3.symm

namespace DB

theorem GetOne_ok {db : DB} {t : Table} {k : Bytes} (h : db.getFault t k = none) :
    db.GetOne t k = (db.data t k, none) := by
  simp [GetOne, h]

theorem GetOne_fault {db : DB} {t : Table} {k : Bytes} {e : Err}
    (h : db.getFault t k = some e) : db.GetOne t k = (none, some e) := by
  simp [GetOne, h]

theorem GetOne_err_none {db : DB} {t : Table} {k : Bytes} {r : Option Bytes}
    (h : db.GetOne t k = (r, none)) : db.getFault t k = none ∧ r = db.data t k := by
  unfold GetOne at h
  cases hf : db.getFault t k <;> simp_all

theorem Put_ok {db : DB} {t : Table} {k v : Bytes} (h : db.putFault t k v = none) :
    db.Put t k v =
      ({ db with data := fun t1 k1 => if t1 = t ∧ k1 = k then some v else db.data t1 k1 },
        none) := by
  simp [Put, h]

theorem Put_fault {db : DB} {t : Table} {k v : Bytes} {e : Err}
    (h : db.putFault t k v = some e) : db.Put t k v = (db, some e) := by
  simp [Put, h]

theorem Delete_ok {db : DB} {t : Table} {k : Bytes} (h : db.delFault t k = none) :
    db.Delete t k =
      ({ db with data := fun t1 k1 => if t1 = t ∧ k1 = k then none else db.data t1 k1 },
        none) := by
  simp [Delete, h]

theorem Delete_fault {db : DB} {t : Table} {k : Bytes} {e : Err}
    (h : db.delFault t k = some e) : db.Delete t k = (db, some e) := by
  simp [Delete, h]

/-- What a put leaves alone: the sequences, the failure behaviour, and every
entry other than the one written. -/
theorem Put_frame (db : DB) (t : Table) (k v : Bytes) :
    (db.Put t k v).1.seq = db.seq ∧ (db.Put t k v).1.getFault = db.getFault ∧
    (db.Put t k v).1.putFault = db.putFault ∧ (db.Put t k v).1.delFault = db.delFault ∧
    (db.Put t k v).1.seqFault = db.seqFault ∧
    ∀ t1 k1, ¬ (t1 = t ∧ k1 = k) → (db.Put t k v).1.data t1 k1 = db.data t1 k1 := by
  cases h : db.putFault t k v with
  | none =>
    rw [Put_ok h]
    refine ⟨rfl, rfl, rfl, rfl, rfl, ?_⟩
    intro t1 k1 hne
    simp [hne]
  | some e =>
    rw [Put_fault h]
    exact ⟨rfl, rfl, rfl, rfl, rfl, fun _ _ _ => rfl⟩

/-- What a delete leaves alone. -/
theorem Delete_frame (db : DB) (t : Table) (k : Bytes) :
    (db.Delete t k).1.seq = db.seq ∧ (db.Delete t k).1.getFault = db.getFault ∧
    (db.Delete t k).1.putFault = db.putFault ∧ (db.Delete t k).1.delFault = db.delFault ∧
    (db.Delete t k).1.seqFault = db.seqFault ∧
    ∀ t1 k1, ¬ (t1 = t ∧ k1 = k) → (db.Delete t k).1.data t1 k1 = db.data t1 k1 := by
  cases h : db.delFault t k with
  | none =>
    rw [Delete_ok h]
    refine ⟨rfl, rfl, rfl, rfl, rfl, ?_⟩
    intro t1 k1 hne
    simp [hne]
  | some e =>
    rw [Delete_fault h]
    exact ⟨rfl, rfl, rfl, rfl, rfl, fun _ _ _ => rfl⟩

/-- A successful put is read back at its key. -/
theorem Put_data_self {db : DB} {t : Table} {k v : Bytes} (h : (db.Put t k v).2 = none) :
    (db.Put t k v).1.data t k = some v := by
  cases hf : db.putFault t k v with
  | none => rw [Put_ok hf]; simp
  | some e => rw [Put_fault hf] at h; simp at h

/-- A successful delete leaves no entry at its key. -/
theorem Delete_data_self {db : DB} {t : Table} {k : Bytes} (h : (db.Delete t k).2 = none) :
    (db.Delete t k).1.data t k = none := by
  cases hf : db.delFault t k with
  | none => rw [Delete_ok hf]; simp
  | some e => rw [Delete_fault hf] at h; simp at h

end DB

/-! ## The identifier registry block -/

/-- The five ways through the identifier block: the get fails; the address
is known; the sequence call fails; the put of the new mapping fails (the
sequence has advanced); a fresh identifier is stored. -/
theorem resolveOrCreate_cases (db : DB) (address : Bytes) :
    (∃ e, resolveOrCreate db address = (db, [], some e)) ∨
    (∃ id, db.getFault .AccountID address = none ∧ db.data .AccountID address = some id ∧
      resolveOrCreate db address = (db, id, none)) ∨
    (db.data .AccountID address = none ∧
      ∃ e, resolveOrCreate db address = (db.bumped, [], some e)) ∨
    (db.getFault .AccountID address = none ∧ db.data .AccountID address = none ∧
      resolveOrCreate db address =
        (db.allocated address, be64 (db.seq .AccountID), none)) := by
  unfold resolveOrCreate
  cases hg : db.getFault .AccountID address with
  | some e => left; exact ⟨e, by simp [DB.GetOne_fault hg]⟩
  | none =>
    rw [DB.GetOne_ok hg]
    cases hd : db.data .AccountID address with
    | some id => right; left; exact ⟨id, rfl, rfl, by simp⟩
    | none =>
      cases hs : db.seqFault .AccountID with
      | some e => left; exact ⟨e, by simp [DB.IncrementSequence, hs]⟩
      | none =>
        simp only [DB.IncrementSequence, hs, PutUint64_make8, be64_mod]
        cases hp : DB.putFault db .AccountID address (be64 (db.seq .AccountID)) with
        | some e =>
          right; right; left
          refine ⟨by trivial, e, ?_⟩
          simp [DB.Put, hp, DB.bumped]
        | none =>
          right; right; right
          refine ⟨by trivial, by trivial, ?_⟩
          simp [DB.Put, hp, DB.bumped, DB.allocated]

/-- The identifier block never changes the failure behaviour of the store,
nor any entry other than the mapping of its address, nor the sequence of
another table; and the sequence of `kv.AccountID` never goes down. -/
theorem resolveOrCreate_frame (db : DB) (address : Bytes) :
    (resolveOrCreate db address).1.getFault = db.getFault ∧
    (resolveOrCreate db address).1.putFault = db.putFault ∧
    (resolveOrCreate db address).1.delFault = db.delFault ∧
    (resolveOrCreate db address).1.seqFault = db.seqFault ∧
    (∀ t k, ¬ (t = Table.AccountID ∧ k = address) →
      (resolveOrCreate db address).1.data t k = db.data t k) ∧
    (∀ t, t ≠ Table.AccountID → (resolveOrCreate db address).1.seq t = db.seq t) ∧
    db.seq .AccountID ≤ (resolveOrCreate db address).1.seq .AccountID := by
  rcases resolveOrCreate_cases db address with ⟨e, h⟩ | ⟨id, _, _, h⟩ | ⟨_, e, h⟩ | ⟨_, _, h⟩
  · rw [h]; exact ⟨rfl, rfl, rfl, rfl, fun _ _ _ => rfl, fun _ _ => rfl, le_refl _⟩
  · rw [h]; exact ⟨rfl, rfl, rfl, rfl, fun _ _ _ => rfl, fun _ _ => rfl, le_refl _⟩
  · rw [h]
    refine ⟨rfl, rfl, rfl, rfl, fun _ _ _ => rfl, ?_, ?_⟩
    · intro t ht; simp [DB.bumped, ht]
    · simp [DB.bumped]
  · rw [h]
    refine ⟨rfl, rfl, rfl, rfl, ?_, ?_, ?_⟩
    · intro t k hne; simp [DB.allocated, hne]
    · intro t ht; simp [DB.allocated, DB.bumped, ht]
    · simp [DB.allocated, DB.bumped]

/-- An address that already has a mapping goes through the identifier block
without any effect on the store, and the block yields the stored mapping. -/
theorem resolveOrCreate_known {db : DB} {address id : Bytes}
    (hd : db.data .AccountID address = some id) :
    (resolveOrCreate db address).1 = db ∧
    ((resolveOrCreate db address).2.2 = none → (resolveOrCreate db address).2.1 = id) := by
  rcases resolveOrCreate_cases db address with ⟨e, h⟩ | ⟨id1, _, hd1, h⟩ | ⟨hn, _, _⟩ | ⟨_, hn, _⟩
  · rw [h]; simp
  · rw [h]; rw [hd] at hd1; simp [Option.some.inj hd1]
  · rw [hd] at hn; simp at hn
  · rw [hd] at hn; simp at hn

/-- After a successful pass through the identifier block, the address maps
to the identifier the block returned, the identifier has eight bytes unless
it was already stored, and the get of the mapping did not fail. -/
theorem resolveOrCreate_ok {db : DB} {address : Bytes}
    (h : (resolveOrCreate db address).2.2 = none) :
    (resolveOrCreate db address).1.data .AccountID address =
      some (resolveOrCreate db address).2.1 ∧
    db.getFault .AccountID address = none := by
  rcases resolveOrCreate_cases db address with ⟨e, h1⟩ | ⟨id, hg, hd, h1⟩ | ⟨_, e, h1⟩ |
    ⟨hg, _, h1⟩
  · rw [h1] at h; simp at h
  · rw [h1]; exact ⟨hd, hg⟩
  · rw [h1] at h; simp at h
  · rw [h1]; exact ⟨by simp [DB.allocated], hg⟩

/-! ## Shape of the composite keys and the guarded collaborator calls -/

theorem take_all {l : Bytes} {n : Nat} (h : l.length ≤ n) : l.take n = l :=
  List.take_of_length_le h

theorem drop_all {l : Bytes} {n : Nat} (h : l.length ≤ n) : l.drop n = [] :=
  List.drop_of_length_le h

theorem writerCompositeKey_eq (id : Bytes) (i : Nat) (key : Bytes) (hid : id.length = 8)
    (hk : key.length = 32) : writerCompositeKey id i key = id ++ be64 i ++ key := by
  have h1 : ∀ n, 8 ≤ n → id.take n = id := fun n hn => take_all (by omega)
  have h2 : ∀ n, 8 ≤ n → (be64 i).take n = be64 i := fun n hn => take_all (by simp [be64_length, hn])
  have h3 : ∀ n, 32 ≤ n → key.take n = key := fun n hn => take_all (by omega)
  have h4 : ∀ n, 8 ≤ n → id.drop n = [] := fun n hn => drop_all (by omega)
  simp [writerCompositeKey, onTail, copy, PutUint64, make, IncarnationLength, HashLength,
    hid, hk, List.take_append_eq_append_take, List.drop_append_eq_append_drop, be64_length,
    h1, h2, h3, h4]

theorem readerCompositeKey_eq (id : Bytes) (i : Nat) (key : Bytes) (hid : id.length = 8)
    (hk : key.length = 32) :
    readerCompositeKey id i key = id ++ List.replicate 12 0 ++ be64 i ++ key.take 20 := by
  have h1 : ∀ n, 8 ≤ n → id.take n = id := fun n hn => take_all (by omega)
  have h2 : ∀ n, 8 ≤ n → (be64 i).take n = be64 i := fun n hn => take_all (by simp [be64_length, hn])
  have h4 : ∀ n, 8 ≤ n → id.drop n = [] := fun n hn => drop_all (by omega)
  simp [readerCompositeKey, onTail, copy, PutUint64, make, IncarnationLength, HashLength,
    AddressLength, hid, hk, List.take_append_eq_append_take, List.drop_append_eq_append_drop,
    be64_length, h1, h2, h4]

theorem readerCompositeKey_nil (i : Nat) (key : Bytes) (hk : key.length = 32) :
    readerCompositeKey [] i key = List.replicate 20 0 ++ be64 i ++ key.take 20 := by
  have h2 : ∀ n, 8 ≤ n → (be64 i).take n = be64 i := fun n hn => take_all (by simp [be64_length, hn])
  simp [readerCompositeKey, onTail, copy, PutUint64, make, IncarnationLength, HashLength,
    AddressLength, hk, List.take_append_eq_append_take, List.drop_append_eq_append_drop,
    be64_length, h2]


namespace NfPlainStateWriter

theorem record_db (w : NfPlainStateWriter) (call : Call) : (w.record call).1.db = w.db := by
  unfold record
  split
  · rfl
  · split <;> rfl

theorem record_accumulator (w : NfPlainStateWriter) (call : Call) :
    (w.record call).1.accumulator = w.accumulator := by
  unfold record
  split
  · rfl
  · split <;> rfl

theorem notify_db (w : NfPlainStateWriter) (n : Notice) : (w.notify n).db = w.db := by
  unfold notify
  cases w.accumulator <;> rfl

end NfPlainStateWriter

/-! ## C1, C2: the storage key of the reader and of the writer -/

/-- C1 (storage round trip), evaluated on the code. On the empty store the
write of value 5 for address `0xaa…aa`, incarnation 1 and the all-zero slot
succeeds and stores the minimal encoding `[5]` under identifier, incarnation
and slot; the read of the same address, incarnation and slot then returns
absent, because the reader places the incarnation at offset 20 of its key. -/
theorem C1_storage_round_trip_fails :
    addrA.length = AddressLength ∧ slot0.length = HashLength ∧ (1 : Nat) < 2 ^ 64 ∧
    (WriteAccountStorage emptyWriter addrA 1 slot0 0 5).2 = none ∧
    (WriteAccountStorage emptyWriter addrA 1 slot0 0 5).1.db.data .PlainState
      (be64 0 ++ be64 1 ++ slot0) = some (uint256Bytes 5) ∧
    uint256Bytes 5 = [5] ∧
    ReadAccountStorage (WriteAccountStorage emptyWriter addrA 1 slot0 0 5).1.db addrA 1 slot0
      = (none, none) := by
  decide

/-- C2 (reader and writer agree on the storage key), evaluated on the code.
For the 8-byte identifier 7, incarnation 1 and the slot with bytes 1 to 32
the writer builds identifier, big-endian incarnation and slot, while the
reader builds identifier, twelve zero bytes, big-endian incarnation and only
the first twenty bytes of the slot; the two keys differ. -/
theorem C2_reader_key_differs_from_writer_key :
    (be64 7).length = 8 ∧ ((List.range 32).map (fun k => k + 1)).length = HashLength ∧
    writerCompositeKey (be64 7) 1 ((List.range 32).map (fun k => k + 1))
      = be64 7 ++ be64 1 ++ (List.range 32).map (fun k => k + 1) ∧
    readerCompositeKey (be64 7) 1 ((List.range 32).map (fun k => k + 1))
      = be64 7 ++ List.replicate 12 0 ++ be64 1 ++ (List.range 20).map (fun k => k + 1) ∧
    readerCompositeKey (be64 7) 1 ((List.range 32).map (fun k => k + 1))
      ≠ writerCompositeKey (be64 7) 1 ((List.range 32).map (fun k => k + 1)) := by
  decide

/-! ## C3: account round trip -/

/-- C3 (account round trip). When the codec decodes the encoding of `R` back
to `R`, the encoding is not empty and `UpdateAccountData` for `A` succeeds,
`ReadAccountData` for `A` on the resulting store returns `R` without error,
whether or not `A` had an identifier before; the gets of the read on the
plain-state table are taken not to fail. -/
theorem C3_account_round_trip (c : Codec) (w : NfPlainStateWriter) (A : Bytes)
    (original R : Account)
    (hcodec : c.DecodeForStorage (c.EncodeForStorage R) = .ok R)
    (hne : c.EncodeForStorage R ≠ [])
    (hget : ∀ k, w.db.getFault .PlainState k = none)
    (hok : (UpdateAccountData c w A original R).2 = none) :
    ReadAccountData c (UpdateAccountData c w A original R).1.db A = (some R, none) := by
  unfold UpdateAccountData at hok ⊢
  have hdb := NfPlainStateWriter.record_db w (.UpdateAccountData A original R)
  rcases hr : w.record (.UpdateAccountData A original R) with ⟨w1, _ | e⟩
  swap
  · rw [hr] at hok; simp at hok
  rw [hr] at hok hdb
  simp only at hok hdb ⊢
  have hdb2 := NfPlainStateWriter.notify_db w1
    (.ChangeAccount A R.Incarnation (c.EncodeForStorage R))
  rw [hdb] at hdb2
  rw [hdb2] at hok ⊢
  have hfr := resolveOrCreate_frame w.db A
  have hro := @resolveOrCreate_ok w.db A
  rcases hrc : resolveOrCreate w.db A with ⟨db1, encID, _ | e⟩
  swap
  · rw [hrc] at hok; simp at hok
  rw [hrc] at hok hfr hro
  simp only at hok hfr hro ⊢
  obtain ⟨hid, hgA⟩ := hro trivial
  have hpf := DB.Put_frame db1 .PlainState encID (c.EncodeForStorage R)
  have hps := @DB.Put_data_self db1 .PlainState encID (c.EncodeForStorage R) hok
  obtain ⟨-, hgf, -, -, -, hdata⟩ := hpf
  unfold ReadAccountData
  have g1 : (db1.Put .PlainState encID (c.EncodeForStorage R)).1.GetOne .AccountID A
      = (some encID, none) := by
    rw [DB.GetOne_ok (by rw [hgf, hfr.1]; exact hgA), hdata _ _ (by simp), hid]
  have g2 : (db1.Put .PlainState encID (c.EncodeForStorage R)).1.GetOne .PlainState encID
      = (some (c.EncodeForStorage R), none) := by
    rw [DB.GetOne_ok (by rw [hgf, hfr.1]; exact hget _), hps]
  simp [g1, bytesOf, g2, hne, hcodec]


/-- C3 instance: a first write of an account on the empty store. -/
theorem C3_account_round_trip_witness :
    ReadAccountData sampleCodec
      (UpdateAccountData sampleCodec emptyWriter addrA (sampleAccount 0) (sampleAccount 1)).1.db
      addrA = (some (sampleAccount 1), none) :=
  C3_account_round_trip sampleCodec emptyWriter addrA (sampleAccount 0) (sampleAccount 1)
    rfl (by decide) (fun _ => rfl) (by decide)

/-! ## The effect of a writer operation on the identifier registry -/

theorem RegistryStep.refl (db : DB) (address : Bytes) : RegistryStep db db address :=
  Or.inl ⟨rfl, rfl⟩

theorem RegistryStep.of_same {db db1 db2 : DB} {address : Bytes}
    (h : RegistryStep db db1 address)
    (hd : db2.data .AccountID = db1.data .AccountID)
    (hs : db2.seq = db1.seq) : RegistryStep db db2 address := by
  unfold RegistryStep at h ⊢
  rw [hd, hs]
  exact h

theorem resolveOrCreate_registry (db : DB) (address : Bytes) :
    RegistryStep db (resolveOrCreate db address).1 address := by
  rcases resolveOrCreate_cases db address with ⟨e, h⟩ | ⟨id, _, _, h⟩ | ⟨hn, e, h⟩ | ⟨_, hn, h⟩
  · rw [h]; exact RegistryStep.refl _ _
  · rw [h]; exact RegistryStep.refl _ _
  · rw [h]; exact Or.inr ⟨hn, by simp [DB.bumped], Or.inl rfl⟩
  · rw [h]
    refine Or.inr ⟨hn, by simp [DB.allocated, DB.bumped], Or.inr ?_⟩
    funext k
    simp [DB.allocated]

theorem DB.Put_registry (db : DB) {t : Table} (k v : Bytes) (ht : t ≠ Table.AccountID) :
    (db.Put t k v).1.data .AccountID = db.data .AccountID ∧ (db.Put t k v).1.seq = db.seq := by
  obtain ⟨hs, -, -, -, -, hd⟩ := DB.Put_frame db t k v
  refine ⟨?_, hs⟩
  funext k1
  exact hd _ _ (fun h => ht h.1.symm)

theorem DB.Delete_registry (db : DB) {t : Table} (k : Bytes) (ht : t ≠ Table.AccountID) :
    (db.Delete t k).1.data .AccountID = db.data .AccountID ∧ (db.Delete t k).1.seq = db.seq := by
  obtain ⟨hs, -, -, -, -, hd⟩ := DB.Delete_frame db t k
  refine ⟨?_, hs⟩
  funext k1
  exact hd _ _ (fun h => ht h.1.symm)

theorem UpdateAccountData_registry (c : Codec) (w : NfPlainStateWriter) (A : Bytes)
    (original R : Account) :
    RegistryStep w.db (UpdateAccountData c w A original R).1.db A := by
  unfold UpdateAccountData
  have hdb := NfPlainStateWriter.record_db w (.UpdateAccountData A original R)
  rcases hr : w.record (.UpdateAccountData A original R) with ⟨w1, _ | e⟩
  · rw [hr] at hdb
    simp only at hdb ⊢
    rw [NfPlainStateWriter.notify_db, hdb]
    have hreg := resolveOrCreate_registry w.db A
    rcases hrc : resolveOrCreate w.db A with ⟨db1, encID, _ | e⟩
    · rw [hrc] at hreg
      have hp := DB.Put_registry db1 encID (c.EncodeForStorage R)
        (by decide : Table.PlainState ≠ Table.AccountID)
      exact hreg.of_same hp.1 hp.2
    · rw [hrc] at hreg; exact hreg
  · rw [hr] at hdb
    simp only at hdb ⊢
    rw [hdb]
    exact RegistryStep.refl _ _

theorem UpdateAccountCode_registry (w : NfPlainStateWriter) (A : Bytes) (i : Nat)
    (h code : Bytes) :
    RegistryStep w.db (UpdateAccountCode w A i h code).1.db A := by
  unfold UpdateAccountCode
  have hdb := NfPlainStateWriter.record_db w (.UpdateAccountCode A i h code)
  rcases hr : w.record (.UpdateAccountCode A i h code) with ⟨w1, _ | e⟩
  · rw [hr] at hdb
    simp only at hdb ⊢
    rw [NfPlainStateWriter.notify_db, hdb]
    have hp := DB.Put_registry w.db h code (by decide : Table.Code ≠ Table.AccountID)
    rcases hpc : w.db.Put .Code h code with ⟨db1, _ | e⟩
    · rw [hpc] at hp
      have hp2 := DB.Put_registry db1 (PlainGenerateStoragePrefix A i) h
        (by decide : Table.PlainContractCode ≠ Table.AccountID)
      exact (RegistryStep.refl w.db A).of_same (hp2.1.trans hp.1) (hp2.2.trans hp.2)
    · rw [hpc] at hp
      exact (RegistryStep.refl w.db A).of_same hp.1 hp.2
  · rw [hr] at hdb
    simp only at hdb ⊢
    rw [hdb]
    exact RegistryStep.refl _ _

theorem DeleteAccount_registry (w : NfPlainStateWriter) (A : Bytes) (original : Account) :
    RegistryStep w.db (DeleteAccount w A original).1.db A := by
  unfold DeleteAccount
  have hdb := NfPlainStateWriter.record_db w (.DeleteAccount A original)
  rcases hr : w.record (.DeleteAccount A original) with ⟨w1, _ | e⟩
  · rw [hr] at hdb
    simp only at hdb ⊢
    rw [NfPlainStateWriter.notify_db, hdb]
    have hreg := resolveOrCreate_registry w.db A
    rcases hrc : resolveOrCreate w.db A with ⟨db1, encID, _ | e⟩
    · rw [hrc] at hreg
      simp only at hreg ⊢
      have hd := DB.Delete_registry db1 encID (by decide : Table.PlainState ≠ Table.AccountID)
      rcases hdc : db1.Delete .PlainState encID with ⟨db2, _ | e⟩
      · rw [hdc] at hd
        simp only at hd ⊢
        split
        · have hp := DB.Put_registry db2 A (PutUint64 (make 8) original.Incarnation)
            (by decide : Table.IncarnationMap ≠ Table.AccountID)
          rcases hpc : db2.Put .IncarnationMap A (PutUint64 (make 8) original.Incarnation)
            with ⟨db3, _ | e⟩ <;>
          · rw [hpc] at hp
            exact hreg.of_same (hp.1.trans hd.1) (hp.2.trans hd.2)
        · exact hreg.of_same hd.1 hd.2
      · rw [hdc] at hd
        exact hreg.of_same hd.1 hd.2
    · rw [hrc] at hreg; exact hreg
  · rw [hr] at hdb
    simp only at hdb ⊢
    rw [hdb]
    exact RegistryStep.refl _ _

theorem WriteAccountStorage_registry (w : NfPlainStateWriter) (A : Bytes) (i : Nat)
    (s : Bytes) (original value : Nat) :
    RegistryStep w.db (WriteAccountStorage w A i s original value).1.db A := by
  unfold WriteAccountStorage
  have hdb := NfPlainStateWriter.record_db w (.WriteAccountStorage A i s original value)
  rcases hr : w.record (.WriteAccountStorage A i s original value) with ⟨w1, _ | e⟩
  · rw [hr] at hdb
    simp only at hdb ⊢
    split
    · rw [hdb]; exact RegistryStep.refl _ _
    · rw [hdb]
      have hreg := resolveOrCreate_registry w.db A
      rcases hrc : resolveOrCreate w.db A with ⟨db1, encID, _ | e⟩
      · rw [hrc] at hreg
        simp only [NfPlainStateWriter.notify_db]
        split
        · have hd := DB.Delete_registry db1 (writerCompositeKey encID i s)
            (by decide : Table.PlainState ≠ Table.AccountID)
          exact hreg.of_same hd.1 hd.2
        · have hp := DB.Put_registry db1 (writerCompositeKey encID i s) (uint256Bytes value)
            (by decide : Table.PlainState ≠ Table.AccountID)
          exact hreg.of_same hp.1 hp.2
      · rw [hrc] at hreg; exact hreg
  · rw [hr] at hdb
    simp only at hdb ⊢
    rw [hdb]
    exact RegistryStep.refl _ _

theorem CreateContract_registry (w : NfPlainStateWriter) (A : Bytes) :
    RegistryStep w.db (CreateContract w A).1.db A := by
  unfold CreateContract
  have hdb := NfPlainStateWriter.record_db w (.CreateContract A)
  rcases hr : w.record (.CreateContract A) with ⟨w1, _ | e⟩ <;>
  · rw [hr] at hdb
    simp only at hdb ⊢
    rw [hdb]
    exact RegistryStep.refl _ _

theorem step_registry (c : Codec) (w : NfPlainStateWriter) (op : Call) :
    RegistryStep w.db (step c w op).1.db op.address := by
  cases op with
  | UpdateAccountData A o R => exact UpdateAccountData_registry c w A o R
  | UpdateAccountCode A i h code => exact UpdateAccountCode_registry w A i h code
  | DeleteAccount A o => exact DeleteAccount_registry w A o
  | WriteAccountStorage A i s o v => exact WriteAccountStorage_registry w A i s o v
  | CreateContract A => exact CreateContract_registry w A


/-! ## C4: the identifier mapping is append-only -/

theorem step_keeps_entry (c : Codec) (w : NfPlainStateWriter) (op : Call) {A id : Bytes}
    (h : w.db.data .AccountID A = some id) :
    (step c w op).1.db.data .AccountID A = some id := by
  rcases step_registry c w op with ⟨hd, _⟩ | ⟨hn, _, hd | hd⟩
  · rw [hd]; exact h
  · rw [hd]; exact h
  · rw [hd]
    have hne : A ≠ op.address := by
      intro heq
      rw [heq, hn] at h
      exact Option.noConfusion h
    simp [hne, h]

theorem run_keeps_entry (c : Codec) (ops : List Call) :
    ∀ (w : NfPlainStateWriter) {A id : Bytes}, w.db.data .AccountID A = some id →
      (run c w ops).db.data .AccountID A = some id := by
  induction ops with
  | nil => intro w A id h; exact h
  | cons op ops ih => intro w A id h; exact ih _ (step_keeps_entry c w op h)

/-- C4 (the address-to-identifier mapping is append-only). Once `A` has an
entry in `kv.AccountID`, every writer operation and every sequence of writer
operations, on any address and whether it succeeds or fails, leaves the
entry of `A` in place with the same value; an operation on `A` leaves the
sequence of `kv.AccountID` where it was; and every later resolution of `A`
yields that same identifier. -/
theorem C4_account_id_append_only (c : Codec) (w : NfPlainStateWriter) (A id : Bytes)
    (h : w.db.data .AccountID A = some id) :
    (∀ op : Call, (step c w op).1.db.data .AccountID A = some id) ∧
    (∀ ops : List Call, (run c w ops).db.data .AccountID A = some id) ∧
    (∀ op : Call, op.address = A →
      (step c w op).1.db.seq .AccountID = w.db.seq .AccountID) ∧
    (∀ ops : List Call, (resolveOrCreate (run c w ops).db A).1 = (run c w ops).db ∧
      ((resolveOrCreate (run c w ops).db A).2.2 = none →
        (resolveOrCreate (run c w ops).db A).2.1 = id)) := by
  refine ⟨fun op => step_keeps_entry c w op h, fun ops => run_keeps_entry c ops w h, ?_, ?_⟩
  · intro op hop
    rcases step_registry c w op with ⟨_, hs⟩ | ⟨hn, _, _⟩
    · exact hs
    · rw [hop, h] at hn
      exact Option.noConfusion hn
  · intro ops
    exact resolveOrCreate_known (run_keeps_entry c ops w h)

/-- C4 instance: after a first write for `0xaa…aa` on the empty store the
address keeps the identifier 0 through a deletion and a write for another
address. -/
theorem C4_account_id_append_only_witness :
    (∀ op : Call,
      (step sampleCodec (WriteAccountStorage emptyWriter addrA 1 slot0 0 5).1 op).1.db.data
        .AccountID addrA = some (be64 0)) ∧
    (∀ ops : List Call,
      (run sampleCodec (WriteAccountStorage emptyWriter addrA 1 slot0 0 5).1 ops).db.data
        .AccountID addrA = some (be64 0)) ∧
    (∀ op : Call, op.address = addrA →
      (step sampleCodec (WriteAccountStorage emptyWriter addrA 1 slot0 0 5).1 op).1.db.seq
        .AccountID = (WriteAccountStorage emptyWriter addrA 1 slot0 0 5).1.db.seq .AccountID) ∧
    (∀ ops : List Call,
      (resolveOrCreate
        (run sampleCodec (WriteAccountStorage emptyWriter addrA 1 slot0 0 5).1 ops).db addrA).1
        = (run sampleCodec (WriteAccountStorage emptyWriter addrA 1 slot0 0 5).1 ops).db ∧
      ((resolveOrCreate
        (run sampleCodec (WriteAccountStorage emptyWriter addrA 1 slot0 0 5).1 ops).db
          addrA).2.2 = none →
        (resolveOrCreate
          (run sampleCodec (WriteAccountStorage emptyWriter addrA 1 slot0 0 5).1 ops).db
            addrA).2.1 = be64 0)) :=
  C4_account_id_append_only sampleCodec (WriteAccountStorage emptyWriter addrA 1 slot0 0 5).1
    addrA (be64 0) (by decide)

/-! ## C5: distinct addresses get distinct identifiers -/

theorem RegistryInv.step {db db1 : DB} {address : Bytes} (hinv : RegistryInv db)
    (hstep : RegistryStep db db1 address) : RegistryInv db1 := by
  obtain ⟨g, hg, hinj⟩ := hinv
  rcases hstep with ⟨hd, hs⟩ | ⟨hn, hs, hd | hd⟩
  · refine ⟨g, ?_, ?_⟩
    · intro a id h
      rw [hd] at h
      rw [hs]
      exact hg a id h
    · intro a b ida idb ha hb
      rw [hd] at ha hb
      exact hinj a b ida idb ha hb
  · refine ⟨g, ?_, ?_⟩
    · intro a id h
      rw [hd] at h
      rw [hs]
      exact ⟨Nat.lt_succ_of_lt (hg a id h).1, (hg a id h).2⟩
    · intro a b ida idb ha hb
      rw [hd] at ha hb
      exact hinj a b ida idb ha hb
  · refine ⟨fun k => if k = address then db.seq .AccountID else g k, ?_, ?_⟩
    · intro a id h
      rw [hd] at h
      rw [hs]
      by_cases ha : a = address
      · simp only [ha, if_true] at h ⊢
        exact ⟨Nat.lt_succ_self _, (Option.some.inj h).symm⟩
      · simp only [ha, if_false] at h ⊢
        exact ⟨Nat.lt_succ_of_lt (hg a id h).1, (hg a id h).2⟩
    · intro a b ida idb ha hb hab
      rw [hd] at ha hb
      by_cases haA : a = address <;> by_cases hbA : b = address
      · rw [haA, hbA]
      · simp only [haA, hbA, if_true, if_false] at hb hab
        have := (hg b idb hb).1
        omega
      · simp only [haA, hbA, if_true, if_false] at ha hab
        have := (hg a ida ha).1
        omega
      · simp only [haA, hbA, if_false] at ha hb hab
        exact hinj a b ida idb ha hb hab

theorem Reachable.registryInv {c : Codec} {w : NfPlainStateWriter} (h : Reachable c w) :
    RegistryInv w.db := by
  induction h with
  | init w he =>
    refine ⟨fun _ => 0, ?_, ?_⟩
    · intro a id h
      rw [he.1] at h
      exact Option.noConfusion h
    · intro a b ida idb ha
      rw [he.1] at ha
      exact Option.noConfusion ha
  | step w op _ ih => exact ih.step (step_registry c w op)

theorem Reachable.run {c : Codec} {w : NfPlainStateWriter} (h : Reachable c w)
    (ops : List Call) : Reachable c (NfPlainState.run c w ops) := by
  induction ops generalizing w with
  | nil => exact h
  | cons op ops ih => exact ih (Reachable.step w op h)

/-- C5 (distinct addresses get distinct identifiers). In every writer state
reachable from an empty store by writer operations, as long as the
sequence of `kv.AccountID` has not wrapped around its 64 bits (the values it
returned so far are 0, 1, 2, … in strictly increasing order), two different
addresses that both have an entry hold different identifiers, and every
stored identifier has exactly eight bytes. -/
theorem C5_account_ids_distinct (c : Codec) (w : NfPlainStateWriter) (hr : Reachable c w)
    (hseq : w.db.seq .AccountID ≤ 2 ^ 64) :
    (∀ A B idA idB, A ≠ B → w.db.data .AccountID A = some idA →
      w.db.data .AccountID B = some idB → idA ≠ idB) ∧
    (∀ A id, w.db.data .AccountID A = some id → id.length = 8) := by
  obtain ⟨g, hg, hinj⟩ := hr.registryInv
  constructor
  · intro A B idA idB hne hA hB heq
    obtain ⟨hlA, hiA⟩ := hg A idA hA
    obtain ⟨hlB, hiB⟩ := hg B idB hB
    rw [hiA, hiB] at heq
    exact hne (hinj A B idA idB hA hB
      (be64_inj (lt_of_lt_of_le hlA hseq) (lt_of_lt_of_le hlB hseq) heq))
  · intro A id hA
    rw [(hg A id hA).2]
    exact be64_length _

/-- C5 instance: an account write for `0xaa…aa` followed by a storage write
for `0xbb…bb` on the empty store gives the two addresses the identifiers 0
and 1. -/
theorem C5_account_ids_distinct_witness :
    ((run sampleCodec emptyWriter
        [.UpdateAccountData addrA (sampleAccount 0) (sampleAccount 1),
         .WriteAccountStorage addrB 1 slot0 0 5]).db.data .AccountID addrA = some (be64 0) ∧
     (run sampleCodec emptyWriter
        [.UpdateAccountData addrA (sampleAccount 0) (sampleAccount 1),
         .WriteAccountStorage addrB 1 slot0 0 5]).db.data .AccountID addrB = some (be64 1)) ∧
    (∀ A B idA idB, A ≠ B →
      (run sampleCodec emptyWriter
        [.UpdateAccountData addrA (sampleAccount 0) (sampleAccount 1),
         .WriteAccountStorage addrB 1 slot0 0 5]).db.data .AccountID A = some idA →
      (run sampleCodec emptyWriter
        [.UpdateAccountData addrA (sampleAccount 0) (sampleAccount 1),
         .WriteAccountStorage addrB 1 slot0 0 5]).db.data .AccountID B = some idB →
      idA ≠ idB) ∧
    (∀ A id,
      (run sampleCodec emptyWriter
        [.UpdateAccountData addrA (sampleAccount 0) (sampleAccount 1),
         .WriteAccountStorage addrB 1 slot0 0 5]).db.data .AccountID A = some id →
      id.length = 8) :=
  ⟨by decide,
    C5_account_ids_distinct sampleCodec _
      ((Reachable.init emptyWriter ⟨fun _ _ => rfl, fun _ => rfl⟩).run _) (by decide)⟩

/-! ## C6: value-unchanged storage writes -/

/-- C6 (value-unchanged storage writes are suppressed). When `original`
equals `value` and the recorder, if there is one, accepts the call,
`WriteAccountStorage` returns no error, leaves the whole store as it was
(entries of every table and every sequence, so no identifier is allocated
even for an address never seen) and sends nothing to the accumulator. -/
theorem C6_unchanged_value_write_suppressed (w : NfPlainStateWriter) (A : Bytes) (i : Nat)
    (s : Bytes) (v : Nat)
    (hrec : ∀ r, w.csw = some r → r.failOn (.WriteAccountStorage A i s v v) = none) :
    (WriteAccountStorage w A i s v v).2 = none ∧
    (WriteAccountStorage w A i s v v).1.db = w.db ∧
    (WriteAccountStorage w A i s v v).1.accumulator = w.accumulator := by
  have hdb := NfPlainStateWriter.record_db w (.WriteAccountStorage A i s v v)
  have hacc := NfPlainStateWriter.record_accumulator w (.WriteAccountStorage A i s v v)
  have hnone : (w.record (.WriteAccountStorage A i s v v)).2 = none := by
    unfold NfPlainStateWriter.record
    cases hc : w.csw with
    | none => rfl
    | some r => simp [hrec r hc]
  unfold WriteAccountStorage
  rcases hr : w.record (.WriteAccountStorage A i s v v) with ⟨w1, _ | e⟩
  · rw [hr] at hdb hacc
    simp only [if_true]
    exact ⟨trivial, hdb, hacc⟩
  · rw [hr] at hnone
    exact Option.noConfusion hnone

/-- C6 instance: a write of 5 over 5 for a never-seen address, with a
recorder and an accumulator present. -/
theorem C6_unchanged_value_write_suppressed_witness :
    (WriteAccountStorage recordingWriter addrA 1 slot0 5 5).2 = none ∧
    (WriteAccountStorage recordingWriter addrA 1 slot0 5 5).1.db = recordingWriter.db ∧
    (WriteAccountStorage recordingWriter addrA 1 slot0 5 5).1.accumulator
      = recordingWriter.accumulator :=
  C6_unchanged_value_write_suppressed recordingWriter addrA 1 slot0 5
    (fun r h => by
      have hr : r = { recorded := [], failOn := fun _ => none } := (Option.some.inj h).symm
      rw [hr])

/-! ## C7: a zero value deletes the entry -/

/-- C7 (zero value means delete), evaluated on the code. Address `0xaa…aa`
first stores 7 at incarnation 0 under the slot `slotX`, then stores 9 at
incarnation 1 under the all-zero slot and finally writes 0 there. The last
write succeeds and removes the entry at identifier, incarnation 1 and slot;
yet the read of incarnation 1 and the all-zero slot returns the bytes `[7]`
of the other entry, because the key the reader builds is the key of
incarnation 0 and `slotX`. -/
theorem C7_read_after_zero_write_not_absent :
    addrA.length = AddressLength ∧ slot0.length = HashLength ∧ slotX.length = HashLength ∧
    (run sampleCodec emptyWriter
      [.WriteAccountStorage addrA 0 slotX 0 7, .WriteAccountStorage addrA 1 slot0 0 9]).db.data
      .PlainState (be64 0 ++ be64 1 ++ slot0) = some [9] ∧
    (WriteAccountStorage (run sampleCodec emptyWriter
      [.WriteAccountStorage addrA 0 slotX 0 7, .WriteAccountStorage addrA 1 slot0 0 9])
      addrA 1 slot0 9 0).2 = none ∧
    (WriteAccountStorage (run sampleCodec emptyWriter
      [.WriteAccountStorage addrA 0 slotX 0 7, .WriteAccountStorage addrA 1 slot0 0 9])
      addrA 1 slot0 9 0).1.db.data .PlainState (be64 0 ++ be64 1 ++ slot0) = none ∧
    ReadAccountStorage (WriteAccountStorage (run sampleCodec emptyWriter
      [.WriteAccountStorage addrA 0 slotX 0 7, .WriteAccountStorage addrA 1 slot0 0 9])
      addrA 1 slot0 9 0).1.db addrA 1 slot0 = (some [7], none) := by
  decide

/-! ## C8: deletion records the last incarnation -/

theorem ReadAccountIncarnation_congr {db db1 : DB} {A : Bytes}
    (hf : db1.getFault = db.getFault)
    (hd : db1.data .IncarnationMap A = db.data .IncarnationMap A) :
    ReadAccountIncarnation db1 A = ReadAccountIncarnation db A := by
  unfold ReadAccountIncarnation DB.GetOne
  rw [hf, hd]

theorem ReadAccountIncarnation_of_entry {db : DB} {A : Bytes} {v : Nat}
    (hg : db.getFault .IncarnationMap A = none)
    (hd : db.data .IncarnationMap A = some (be64 v)) (hv : v < 2 ^ 64) :
    ReadAccountIncarnation db A = some (v, none) := by
  unfold ReadAccountIncarnation
  rw [DB.GetOne_ok hg, hd]
  simp only [bytesOf, Option.getD_some, be64_length]
  rw [if_neg (by decide), Uint64_be64, Nat.mod_eq_of_lt hv]
  rfl

/-- C8 (deletion records the last incarnation). After a successful
`DeleteAccount` for `A` with pre-image `original` (whose incarnation is a
`uint64`): when the incarnation is positive, `ReadAccountIncarnation` for
`A` returns it, provided the get on the incarnation table does not fail;
when the incarnation is zero, `ReadAccountIncarnation` for `A` returns what
it returned before the call, which is 0 when `A` had no entry in the
incarnation table. -/
theorem C8_delete_records_incarnation (w : NfPlainStateWriter) (A : Bytes)
    (original : Account) (h64 : original.Incarnation < 2 ^ 64)
    (hok : (DeleteAccount w A original).2 = none) :
    (0 < original.Incarnation → w.db.getFault .IncarnationMap A = none →
      ReadAccountIncarnation (DeleteAccount w A original).1.db A
        = some (original.Incarnation, none)) ∧
    (original.Incarnation = 0 →
      ReadAccountIncarnation (DeleteAccount w A original).1.db A
        = ReadAccountIncarnation w.db A ∧
      (w.db.getFault .IncarnationMap A = none → w.db.data .IncarnationMap A = none →
        ReadAccountIncarnation (DeleteAccount w A original).1.db A = some (0, none))) := by
  unfold DeleteAccount at hok ⊢
  have hdb := NfPlainStateWriter.record_db w (.DeleteAccount A original)
  rcases hr : w.record (.DeleteAccount A original) with ⟨w1, _ | e⟩
  swap
  · rw [hr] at hok; simp at hok
  rw [hr] at hok hdb
  simp only at hok hdb ⊢
  rw [NfPlainStateWriter.notify_db, hdb] at hok ⊢
  have hfr := resolveOrCreate_frame w.db A
  rcases hrc : resolveOrCreate w.db A with ⟨db1, encID, _ | e⟩
  swap
  · rw [hrc] at hok; simp at hok
  rw [hrc] at hok hfr
  simp only at hok hfr ⊢
  obtain ⟨hf1, -, -, -, hd1, -, -⟩ := hfr
  have hdf := DB.Delete_frame db1 .PlainState encID
  rcases hdc : db1.Delete .PlainState encID with ⟨db2, _ | e⟩
  swap
  · rw [hdc] at hok; simp at hok
  rw [hdc] at hok hdf
  simp only at hok hdf ⊢
  obtain ⟨-, hf2, -, -, -, hd2⟩ := hdf
  have hsame : ReadAccountIncarnation db2 A = ReadAccountIncarnation w.db A :=
    ReadAccountIncarnation_congr (hf2.trans hf1)
      ((hd2 _ _ (by simp)).trans (hd1 _ _ (by simp)))
  by_cases hpos : original.Incarnation > 0
  · rw [if_pos hpos] at hok ⊢
    have hpf := DB.Put_frame db2 .IncarnationMap A (PutUint64 (make 8) original.Incarnation)
    have hps := @DB.Put_data_self db2 .IncarnationMap A
      (PutUint64 (make 8) original.Incarnation)
    rcases hpc : db2.Put .IncarnationMap A (PutUint64 (make 8) original.Incarnation)
      with ⟨db3, _ | e⟩
    swap
    · rw [hpc] at hok; simp at hok
    rw [hpc] at hpf hps
    simp only at hpf hps ⊢
    refine ⟨fun _ hg => ?_, fun h0 => absurd h0 (Nat.pos_iff_ne_zero.mp hpos)⟩
    rw [PutUint64_make8] at hps
    exact ReadAccountIncarnation_of_entry (by rw [hpf.2.1, hf2, hf1]; exact hg)
      (hps trivial) h64
  · rw [if_neg hpos] at hok ⊢
    refine ⟨fun h0 => absurd h0 hpos, fun _ => ⟨hsame, fun hg hn => ?_⟩⟩
    simp only
    rw [hsame]
    unfold ReadAccountIncarnation
    rw [DB.GetOne_ok hg, hn]
    rfl

/-- C8 instance: the deletion of an account of incarnation 3 on the empty
store. -/
theorem C8_delete_records_incarnation_witness :
    (0 < (sampleAccount 3).Incarnation →
      emptyWriter.db.getFault .IncarnationMap addrA = none →
      ReadAccountIncarnation (DeleteAccount emptyWriter addrA (sampleAccount 3)).1.db addrA
        = some ((sampleAccount 3).Incarnation, none)) ∧
    ((sampleAccount 3).Incarnation = 0 →
      ReadAccountIncarnation (DeleteAccount emptyWriter addrA (sampleAccount 3)).1.db addrA
        = ReadAccountIncarnation emptyWriter.db addrA ∧
      (emptyWriter.db.getFault .IncarnationMap addrA = none →
        emptyWriter.db.data .IncarnationMap addrA = none →
        ReadAccountIncarnation (DeleteAccount emptyWriter addrA (sampleAccount 3)).1.db addrA
          = some (0, none))) :=
  C8_delete_records_incarnation emptyWriter addrA (sampleAccount 3) (by decide) (by decide)

/-! ## C9: propagation of store errors by the reader -/

/-- The three reader methods that test the error of a get before anything
else hand a failing get to the caller. -/
theorem reader_get_errors_propagated (c : Codec) (db : DB) (A : Bytes) (i : Nat) (s : Bytes)
    (e : Err) :
    (db.getFault .AccountID A = some e →
      ReadAccountData c db A = (none, some e) ∧
      ReadAccountStorage db A i s = (none, some e)) ∧
    (db.getFault .AccountID A = none →
      db.getFault .PlainState (bytesOf (db.data .AccountID A)) = some e →
      ReadAccountData c db A = (none, some e)) ∧
    (db.getFault .AccountID A = none →
      db.getFault .PlainState (readerCompositeKey (bytesOf (db.data .AccountID A)) i s)
        = some e →
      ReadAccountStorage db A i s = (none, some e)) ∧
    (db.getFault .IncarnationMap A = some e →
      ReadAccountIncarnation db A = some (0, some e)) := by
  refine ⟨fun h => ⟨?_, ?_⟩, fun h1 h2 => ?_, fun h1 h2 => ?_, fun h => ?_⟩
  · simp [ReadAccountData, DB.GetOne_fault h]
  · simp [ReadAccountStorage, DB.GetOne_fault h]
  · simp [ReadAccountData, DB.GetOne_ok h1, DB.GetOne_fault h2]
  · simp [ReadAccountStorage, DB.GetOne_ok h1, DB.GetOne_fault h2]
  · simp [ReadAccountIncarnation, DB.GetOne_fault h]

/-- C9 (every reader operation propagates store errors), evaluated on the
code. On a store whose get on the code table fails with error 5, and for a
code hash other than the empty-code hash, `ReadAccountCode` returns absent
with no error and `ReadAccountCodeSize` returns 0 with no error; the error
of the get is dropped. -/
theorem C9_code_read_drops_store_error :
    slot0.length = HashLength ∧ slot0 ≠ emptyCodeHash ∧
    codeFaultDB.GetOne .Code slot0 = (none, some ⟨5⟩) ∧
    ReadAccountCode codeFaultDB addrA 1 slot0 = (none, none) ∧
    ReadAccountCodeSize codeFaultDB addrA 1 slot0 = (0, none) := by
  decide

/-! ## C10: storage of an address without identifier -/

/-- C10 (reading storage of a never-written address yields absent),
evaluated on the code. Take a store in which `0xaa…aa` has no entry in
`kv.AccountID` and `kv.PlainState` holds `[42]` under the key of 48 zero
bytes; it is the store reached from the empty one when address `0xbb…bb`,
which receives the identifier 0, stores 42 at incarnation 0 under the
all-zero slot. The read of incarnation 0 and the all-zero slot for
`0xaa…aa` returns the bytes `[42]`: with a `nil` identifier the reader
still builds a key, here 48 zero bytes, and looks it up. -/
theorem C10_unwritten_address_reads_foreign_storage :
    addrA.length = AddressLength ∧ addrB.length = AddressLength ∧
    slot0.length = HashLength ∧
    (WriteAccountStorage emptyWriter addrB 0 slot0 0 42).2 = none ∧
    (WriteAccountStorage emptyWriter addrB 0 slot0 0 42).1.db.data .AccountID addrA = none ∧
    (WriteAccountStorage emptyWriter addrB 0 slot0 0 42).1.db.data .AccountID addrB
      = some (be64 0) ∧
    (WriteAccountStorage emptyWriter addrB 0 slot0 0 42).1.db.data .PlainState
      (List.replicate 48 0) = some [42] ∧
    readerCompositeKey (bytesOf none) 0 slot0 = List.replicate 48 0 ∧
    ReadAccountStorage (WriteAccountStorage emptyWriter addrB 0 slot0 0 42).1.db addrA 0 slot0
      = (some [42], none) := by
  decide

/-! ## The outcomes of each writer method, in terms of the store -/

theorem UpdateAccountData_cases (c : Codec) (w : NfPlainStateWriter) (A : Bytes)
    (original R : Account) :
    ((UpdateAccountData c w A original R).1.db = w.db ∧
      (UpdateAccountData c w A original R).2 ≠ none) ∨
    ((resolveOrCreate w.db A).2.2 ≠ none ∧
      (UpdateAccountData c w A original R).1.db = (resolveOrCreate w.db A).1 ∧
      (UpdateAccountData c w A original R).2 = (resolveOrCreate w.db A).2.2) ∨
    ((resolveOrCreate w.db A).2.2 = none ∧
      (UpdateAccountData c w A original R).1.db =
        ((resolveOrCreate w.db A).1.Put .PlainState (resolveOrCreate w.db A).2.1
          (c.EncodeForStorage R)).1 ∧
      (UpdateAccountData c w A original R).2 =
        ((resolveOrCreate w.db A).1.Put .PlainState (resolveOrCreate w.db A).2.1
          (c.EncodeForStorage R)).2) := by
  unfold UpdateAccountData
  have hdb := NfPlainStateWriter.record_db w (.UpdateAccountData A original R)
  rcases hr : w.record (.UpdateAccountData A original R) with ⟨w1, _ | e⟩
  · rw [hr] at hdb
    simp only at hdb ⊢
    rw [NfPlainStateWriter.notify_db, hdb]
    rcases hrc : resolveOrCreate w.db A with ⟨db1, encID, _ | e⟩
    · right; right; exact ⟨rfl, rfl, rfl⟩
    · right; left; exact ⟨fun h => Option.noConfusion h, rfl, rfl⟩
  · rw [hr] at hdb
    left
    exact ⟨hdb, fun h => Option.noConfusion h⟩

theorem UpdateAccountCode_cases (w : NfPlainStateWriter) (A : Bytes) (i : Nat)
    (h code : Bytes) :
    ((UpdateAccountCode w A i h code).1.db = w.db ∧
      (UpdateAccountCode w A i h code).2 ≠ none) ∨
    ((w.db.Put .Code h code).2 ≠ none ∧
      (UpdateAccountCode w A i h code).1.db = (w.db.Put .Code h code).1 ∧
      (UpdateAccountCode w A i h code).2 = (w.db.Put .Code h code).2) ∨
    ((w.db.Put .Code h code).2 = none ∧
      (UpdateAccountCode w A i h code).1.db =
        ((w.db.Put .Code h code).1.Put .PlainContractCode
          (PlainGenerateStoragePrefix A i) h).1 ∧
      (UpdateAccountCode w A i h code).2 =
        ((w.db.Put .Code h code).1.Put .PlainContractCode
          (PlainGenerateStoragePrefix A i) h).2) := by
  unfold UpdateAccountCode
  have hdb := NfPlainStateWriter.record_db w (.UpdateAccountCode A i h code)
  rcases hr : w.record (.UpdateAccountCode A i h code) with ⟨w1, _ | e⟩
  · rw [hr] at hdb
    simp only at hdb ⊢
    rw [NfPlainStateWriter.notify_db, hdb]
    rcases hpc : w.db.Put .Code h code with ⟨db1, _ | e⟩
    · right; right; exact ⟨rfl, rfl, rfl⟩
    · right; left; exact ⟨fun h => Option.noConfusion h, rfl, rfl⟩
  · rw [hr] at hdb
    left
    exact ⟨hdb, fun h => Option.noConfusion h⟩

theorem DeleteAccount_cases (w : NfPlainStateWriter) (A : Bytes) (original : Account) :
    ((DeleteAccount w A original).1.db = w.db ∧ (DeleteAccount w A original).2 ≠ none) ∨
    ((resolveOrCreate w.db A).2.2 ≠ none ∧
      (DeleteAccount w A original).1.db = (resolveOrCreate w.db A).1 ∧
      (DeleteAccount w A original).2 = (resolveOrCreate w.db A).2.2) ∨
    ((resolveOrCreate w.db A).2.2 = none ∧
      ((resolveOrCreate w.db A).1.Delete .PlainState (resolveOrCreate w.db A).2.1).2 ≠ none ∧
      (DeleteAccount w A original).1.db =
        ((resolveOrCreate w.db A).1.Delete .PlainState (resolveOrCreate w.db A).2.1).1 ∧
      (DeleteAccount w A original).2 =
        ((resolveOrCreate w.db A).1.Delete .PlainState (resolveOrCreate w.db A).2.1).2) ∨
    ((resolveOrCreate w.db A).2.2 = none ∧
      ((resolveOrCreate w.db A).1.Delete .PlainState (resolveOrCreate w.db A).2.1).2 = none ∧
      original.Incarnation = 0 ∧
      (DeleteAccount w A original).1.db =
        ((resolveOrCreate w.db A).1.Delete .PlainState (resolveOrCreate w.db A).2.1).1 ∧
      (DeleteAccount w A original).2 = none) ∨
    ((resolveOrCreate w.db A).2.2 = none ∧
      ((resolveOrCreate w.db A).1.Delete .PlainState (resolveOrCreate w.db A).2.1).2 = none ∧
      0 < original.Incarnation ∧
      (DeleteAccount w A original).1.db =
        (((resolveOrCreate w.db A).1.Delete .PlainState (resolveOrCreate w.db A).2.1).1.Put
          .IncarnationMap A (be64 original.Incarnation)).1 ∧
      (DeleteAccount w A original).2 =
        (((resolveOrCreate w.db A).1.Delete .PlainState (resolveOrCreate w.db A).2.1).1.Put
          .IncarnationMap A (be64 original.Incarnation)).2) := by
  unfold DeleteAccount
  have hdb := NfPlainStateWriter.record_db w (.DeleteAccount A original)
  rcases hr : w.record (.DeleteAccount A original) with ⟨w1, _ | e⟩
  · rw [hr] at hdb
    simp only at hdb ⊢
    rw [NfPlainStateWriter.notify_db, hdb, PutUint64_make8]
    rcases hrc : resolveOrCreate w.db A with ⟨db1, encID, _ | e⟩
    · simp only
      rcases hdc : db1.Delete .PlainState encID with ⟨db2, _ | e⟩
      · simp only
        by_cases hpos : original.Incarnation > 0
        · rw [if_pos hpos]
          right; right; right; right
          rcases hpc : db2.Put .IncarnationMap A (be64 original.Incarnation)
            with ⟨db3, _ | e⟩ <;> exact ⟨trivial, trivial, hpos, rfl, rfl⟩
        · rw [if_neg hpos]
          right; right; right; left
          exact ⟨trivial, trivial, Nat.eq_zero_of_not_pos hpos, rfl, rfl⟩
      · right; right; left
        exact ⟨trivial, fun h => Option.noConfusion h, rfl, rfl⟩
    · right; left; exact ⟨fun h => Option.noConfusion h, rfl, rfl⟩
  · rw [hr] at hdb
    left
    exact ⟨hdb, fun h => Option.noConfusion h⟩

theorem WriteAccountStorage_cases (w : NfPlainStateWriter) (A : Bytes) (i : Nat)
    (s : Bytes) (original value : Nat) :
    ((WriteAccountStorage w A i s original value).1.db = w.db ∧
      (WriteAccountStorage w A i s original value).2 ≠ none) ∨
    (original = value ∧ (WriteAccountStorage w A i s original value).1.db = w.db ∧
      (WriteAccountStorage w A i s original value).2 = none) ∨
    (original ≠ value ∧ (resolveOrCreate w.db A).2.2 ≠ none ∧
      (WriteAccountStorage w A i s original value).1.db = (resolveOrCreate w.db A).1 ∧
      (WriteAccountStorage w A i s original value).2 = (resolveOrCreate w.db A).2.2) ∨
    (original ≠ value ∧ (resolveOrCreate w.db A).2.2 = none ∧
      (uint256Bytes value).length = 0 ∧
      (WriteAccountStorage w A i s original value).1.db =
        ((resolveOrCreate w.db A).1.Delete .PlainState
          (writerCompositeKey (resolveOrCreate w.db A).2.1 i s)).1 ∧
      (WriteAccountStorage w A i s original value).2 =
        ((resolveOrCreate w.db A).1.Delete .PlainState
          (writerCompositeKey (resolveOrCreate w.db A).2.1 i s)).2) ∨
    (original ≠ value ∧ (resolveOrCreate w.db A).2.2 = none ∧
      (uint256Bytes value).length ≠ 0 ∧
      (WriteAccountStorage w A i s original value).1.db =
        ((resolveOrCreate w.db A).1.Put .PlainState
          (writerCompositeKey (resolveOrCreate w.db A).2.1 i s) (uint256Bytes value)).1 ∧
      (WriteAccountStorage w A i s original value).2 =
        ((resolveOrCreate w.db A).1.Put .PlainState
          (writerCompositeKey (resolveOrCreate w.db A).2.1 i s) (uint256Bytes value)).2) := by
  unfold WriteAccountStorage
  have hdb := NfPlainStateWriter.record_db w (.WriteAccountStorage A i s original value)
  rcases hr : w.record (.WriteAccountStorage A i s original value) with ⟨w1, _ | e⟩
  · rw [hr] at hdb
    simp only at hdb ⊢
    by_cases heq : original = value
    · rw [if_pos heq]
      right; left; exact ⟨heq, hdb, rfl⟩
    · rw [if_neg heq, hdb]
      rcases hrc : resolveOrCreate w.db A with ⟨db1, encID, _ | e⟩
      · simp only [NfPlainStateWriter.notify_db]
        by_cases hlen : (uint256Bytes value).length = 0
        · rw [if_pos hlen]
          right; right; right; left
          exact ⟨heq, trivial, hlen, rfl, rfl⟩
        · rw [if_neg hlen]
          right; right; right; right
          exact ⟨heq, trivial, hlen, rfl, rfl⟩
      · right; right; left
        exact ⟨heq, fun h => Option.noConfusion h, rfl, rfl⟩
  · rw [hr] at hdb
    left
    exact ⟨hdb, fun h => Option.noConfusion h⟩

theorem CreateContract_db (w : NfPlainStateWriter) (A : Bytes) :
    (CreateContract w A).1.db = w.db := by
  unfold CreateContract
  have hdb := NfPlainStateWriter.record_db w (.CreateContract A)
  rcases hr : w.record (.CreateContract A) with ⟨w1, _ | e⟩ <;>
  · rw [hr] at hdb
    exact hdb

/-! ## Frames: what the store calls leave alone -/

theorem DB.Put_data_ne (db : DB) {t t1 : Table} (k v : Bytes) (h : t1 ≠ t) (k1 : Bytes) :
    (db.Put t k v).1.data t1 k1 = db.data t1 k1 :=
  (DB.Put_frame db t k v).2.2.2.2.2 t1 k1 (fun hc => h hc.1)

theorem DB.Put_data_key_ne (db : DB) (t : Table) {k k1 : Bytes} (v : Bytes) (h : k1 ≠ k) :
    (db.Put t k v).1.data t k1 = db.data t k1 :=
  (DB.Put_frame db t k v).2.2.2.2.2 t k1 (fun hc => h hc.2)

theorem DB.Put_getFault (db : DB) (t : Table) (k v : Bytes) :
    (db.Put t k v).1.getFault = db.getFault :=
  (DB.Put_frame db t k v).2.1

theorem DB.Delete_data_ne (db : DB) {t t1 : Table} (k : Bytes) (h : t1 ≠ t) (k1 : Bytes) :
    (db.Delete t k).1.data t1 k1 = db.data t1 k1 :=
  (DB.Delete_frame db t k).2.2.2.2.2 t1 k1 (fun hc => h hc.1)

theorem DB.Delete_data_key_ne (db : DB) (t : Table) {k k1 : Bytes} (h : k1 ≠ k) :
    (db.Delete t k).1.data t k1 = db.data t k1 :=
  (DB.Delete_frame db t k).2.2.2.2.2 t k1 (fun hc => h hc.2)

theorem DB.Delete_getFault (db : DB) (t : Table) (k : Bytes) :
    (db.Delete t k).1.getFault = db.getFault :=
  (DB.Delete_frame db t k).2.1

/-- A put never removes an entry, and the entry it may add is the one at its
key. -/
theorem DB.Put_data_cases (db : DB) (t : Table) (k v : Bytes) (t1 : Table) (k1 : Bytes) :
    (db.Put t k v).1.data t1 k1 = db.data t1 k1 ∨
    (t1 = t ∧ k1 = k ∧ (db.Put t k v).1.data t1 k1 = some v) := by
  by_cases h : t1 = t ∧ k1 = k
  · cases hf : db.putFault t k v with
    | none => right; rw [DB.Put_ok hf]; exact ⟨h.1, h.2, by simp [h]⟩
    | some e => left; rw [DB.Put_fault hf]
  · left; exact (DB.Put_frame db t k v).2.2.2.2.2 t1 k1 h

/-- A delete never adds an entry. -/
theorem DB.Delete_data_cases (db : DB) (t : Table) (k : Bytes) (t1 : Table) (k1 : Bytes) :
    (db.Delete t k).1.data t1 k1 = db.data t1 k1 ∨ (db.Delete t k).1.data t1 k1 = none := by
  by_cases h : t1 = t ∧ k1 = k
  · cases hf : db.delFault t k with
    | none => right; rw [DB.Delete_ok hf]; simp [h]
    | some e => left; rw [DB.Delete_fault hf]
  · left; exact (DB.Delete_frame db t k).2.2.2.2.2 t1 k1 h

/-- A put of the value already stored at its key leaves the store as it is,
whether the put itself succeeds or fails. -/
theorem DB.Put_absorb {db : DB} {t : Table} {k v : Bytes} (h : db.data t k = some v) :
    (db.Put t k v).1 = db := by
  cases hf : db.putFault t k v with
  | some e => rw [DB.Put_fault hf]
  | none =>
    rw [DB.Put_ok hf]
    cases db with
    | mk data seq gf pf df sf =>
      simp only [DB.mk.injEq, and_true]
      funext t1 k1
      by_cases hc : t1 = t ∧ k1 = k
      · simp only [hc, and_self, if_true]
        exact h.symm
      · simp only [hc, if_false]

theorem resolveOrCreate_data_ne (db : DB) (A : Bytes) {t : Table} (h : t ≠ Table.AccountID)
    (k : Bytes) : (resolveOrCreate db A).1.data t k = db.data t k :=
  (resolveOrCreate_frame db A).2.2.2.2.1 t k (fun hc => h hc.1)

theorem resolveOrCreate_data_other (db : DB) {A B : Bytes} (h : B ≠ A) :
    (resolveOrCreate db A).1.data .AccountID B = db.data .AccountID B :=
  (resolveOrCreate_frame db A).2.2.2.2.1 .AccountID B (fun hc => h hc.2)

theorem resolveOrCreate_getFault (db : DB) (A : Bytes) :
    (resolveOrCreate db A).1.getFault = db.getFault :=
  (resolveOrCreate_frame db A).1

/-- No writer operation changes which gets of the store fail. -/
theorem step_getFault (c : Codec) (w : NfPlainStateWriter) (op : Call) :
    (step c w op).1.db.getFault = w.db.getFault := by
  cases op with
  | UpdateAccountData A o R =>
    rcases UpdateAccountData_cases c w A o R with ⟨h, _⟩ | ⟨_, h, _⟩ | ⟨_, h, _⟩ <;>
      simp only [step, h, DB.Put_getFault, resolveOrCreate_getFault]
  | UpdateAccountCode A i hh code =>
    rcases UpdateAccountCode_cases w A i hh code with ⟨h, _⟩ | ⟨_, h, _⟩ | ⟨_, h, _⟩ <;>
      simp only [step, h, DB.Put_getFault]
  | DeleteAccount A o =>
    rcases DeleteAccount_cases w A o with
      ⟨h, _⟩ | ⟨_, h, _⟩ | ⟨_, _, h, _⟩ | ⟨_, _, _, h, _⟩ | ⟨_, _, _, h, _⟩ <;>
      simp only [step, h, DB.Put_getFault, DB.Delete_getFault, resolveOrCreate_getFault]
  | WriteAccountStorage A i s o v =>
    rcases WriteAccountStorage_cases w A i s o v with
      ⟨h, _⟩ | ⟨_, h, _⟩ | ⟨_, _, h, _⟩ | ⟨_, _, _, h, _⟩ | ⟨_, _, _, h, _⟩ <;>
      simp only [step, h, DB.Put_getFault, DB.Delete_getFault, resolveOrCreate_getFault]
  | CreateContract A => simp only [step, CreateContract_db]

theorem run_getFault (c : Codec) (ops : List Call) :
    ∀ w : NfPlainStateWriter, (run c w ops).db.getFault = w.db.getFault := by
  induction ops with
  | nil => intro w; rfl
  | cons op ops ih => intro w; exact (ih _).trans (step_getFault c w op)

/-! ## C12: the empty-code hash -/

/-- C12 (reading code for the empty-code hash is independent of the store).
For every store, whatever its entries and whichever of its gets fail, every
address and every incarnation, `ReadAccountCode` with the canonical
empty-code hash returns absent with no error and `ReadAccountCodeSize`
returns 0 with no error; the result never depends on the store, so no get
is made. -/
theorem C12_empty_code_hash_read (db : DB) (A : Bytes) (i : Nat) :
    ReadAccountCode db A i emptyCodeHash = (none, none) ∧
    ReadAccountCodeSize db A i emptyCodeHash = (0, none) := by
  have h : ReadAccountCode db A i emptyCodeHash = (none, none) := by
    simp [ReadAccountCode]
  refine ⟨h, ?_⟩
  unfold ReadAccountCodeSize
  rw [h]
  rfl

/-! ## C13: code is content-addressed -/

/-- C13 (code is content-addressed with a round trip). After a successful
`UpdateAccountCode` for address `A` and incarnation `i` with a code hash
other than the empty-code hash and non-empty code, `ReadAccountCode` with
that hash returns the code for every address `B` and incarnation `j`
(the get on the code table is taken not to fail), and a second application
of the same `UpdateAccountCode` leaves the store exactly as it is. -/
theorem C13_code_round_trip (w : NfPlainStateWriter) (A B : Bytes) (i j : Nat)
    (h code : Bytes) (hh : h ≠ emptyCodeHash) (hc : code ≠ [])
    (hget : w.db.getFault .Code h = none)
    (hok : (UpdateAccountCode w A i h code).2 = none) :
    ReadAccountCode (UpdateAccountCode w A i h code).1.db B j h = (some code, none) ∧
    (UpdateAccountCode (UpdateAccountCode w A i h code).1 A i h code).1.db
      = (UpdateAccountCode w A i h code).1.db := by
  have hcode : (UpdateAccountCode w A i h code).1.db.data .Code h = some code ∧
      (UpdateAccountCode w A i h code).1.db.data .PlainContractCode
        (PlainGenerateStoragePrefix A i) = some h := by
    rcases UpdateAccountCode_cases w A i h code with ⟨_, h2⟩ | ⟨h1, _, h2⟩ | ⟨h1, hd, h2⟩
    · exact absurd hok h2
    · rw [hok] at h2; exact absurd h2.symm h1
    · rw [hok] at h2
      rw [hd]
      exact ⟨(DB.Put_data_ne _ _ _ (by decide) _).trans (DB.Put_data_self h1),
        DB.Put_data_self h2.symm⟩
  have hgf := step_getFault sampleCodec w (.UpdateAccountCode A i h code)
  simp only [step] at hgf
  constructor
  · unfold ReadAccountCode
    rw [if_neg hh, DB.GetOne_ok (by rw [hgf]; exact hget), hcode.1]
    have hl : (bytesOf (some code)).length ≠ 0 := by
      simpa [bytesOf] using hc
    simp only [hl, if_false]
  · have ha1 := DB.Put_absorb (hcode.1 : _ = some code)
    rcases UpdateAccountCode_cases (UpdateAccountCode w A i h code).1 A i h code with
      ⟨hd, _⟩ | ⟨_, hd, _⟩ | ⟨_, hd, _⟩
    · exact hd
    · rw [hd, ha1]
    · rw [hd, ha1]
      exact DB.Put_absorb hcode.2

/-- C13 instance: code `[96, 0]` stored under the all-zero hash on the empty
store and read for another address and incarnation. -/
theorem C13_code_round_trip_witness :
    ReadAccountCode (UpdateAccountCode emptyWriter addrA 1 slot0 [96, 0]).1.db addrB 2 slot0
      = (some [96, 0], none) ∧
    (UpdateAccountCode (UpdateAccountCode emptyWriter addrA 1 slot0 [96, 0]).1
      addrA 1 slot0 [96, 0]).1.db
      = (UpdateAccountCode emptyWriter addrA 1 slot0 [96, 0]).1.db :=
  C13_code_round_trip emptyWriter addrA addrB 1 2 slot0 [96, 0] (by decide) (by decide) rfl
    (by decide)

/-! ## C18: a refusing recorder -/

/-- C18 (a recorder failure is atomic for the store). When a change-set
recorder is present and refuses the call of a writer method with an error,
the method returns that error and the writer is exactly as before: the
store (entries, sequences) is unchanged, the accumulator has received
nothing and the recorder is as it was. This holds for each of
`UpdateAccountData`, `UpdateAccountCode`, `DeleteAccount`,
`WriteAccountStorage` and `CreateContract`. -/
theorem C18_recorder_failure_atomic (c : Codec) (w : NfPlainStateWriter)
    (r : ChangeSetWriter) (e : Err) (hr : w.csw = some r) :
    (∀ A original R, r.failOn (.UpdateAccountData A original R) = some e →
      UpdateAccountData c w A original R = (w, some e)) ∧
    (∀ A i h code, r.failOn (.UpdateAccountCode A i h code) = some e →
      UpdateAccountCode w A i h code = (w, some e)) ∧
    (∀ A original, r.failOn (.DeleteAccount A original) = some e →
      DeleteAccount w A original = (w, some e)) ∧
    (∀ A i s original value, r.failOn (.WriteAccountStorage A i s original value) = some e →
      WriteAccountStorage w A i s original value = (w, some e)) ∧
    (∀ A, r.failOn (.CreateContract A) = some e → CreateContract w A = (w, some e)) := by
  have hrec : ∀ call, r.failOn call = some e → w.record call = (w, some e) := by
    intro call hf
    simp [NfPlainStateWriter.record, hr, hf]
  refine ⟨?_, ?_, ?_, ?_, ?_⟩
  · intro A original R hf
    simp [UpdateAccountData, hrec _ hf]
  · intro A i h code hf
    simp [UpdateAccountCode, hrec _ hf]
  · intro A original hf
    simp [DeleteAccount, hrec _ hf]
  · intro A i s original value hf
    simp [WriteAccountStorage, hrec _ hf]
  · intro A hf
    simp [CreateContract, hrec _ hf]

/-- C18 instance: with a recorder that refuses every call, a deletion and a
storage write return the error and leave the writer as it was. -/
theorem C18_recorder_failure_atomic_witness :
    DeleteAccount refusingWriter addrA (sampleAccount 1) = (refusingWriter, some ⟨9⟩) ∧
    WriteAccountStorage refusingWriter addrA 1 slot0 0 5 = (refusingWriter, some ⟨9⟩) :=
  ⟨(C18_recorder_failure_atomic sampleCodec refusingWriter
      { recorded := [], failOn := fun _ => some ⟨9⟩ } ⟨9⟩ rfl).2.2.1 addrA (sampleAccount 1) rfl,
    (C18_recorder_failure_atomic sampleCodec refusingWriter
      { recorded := [], failOn := fun _ => some ⟨9⟩ } ⟨9⟩ rfl).2.2.2.1 addrA 1 slot0 0 5 rfl⟩

/-! ## C14, C15: the incarnation table -/

/-- The only way a writer operation changes the incarnation entry of `B` is
a `DeleteAccount` for `B` with a positive incarnation, which stores the
encoding of that incarnation. -/
theorem step_incarnationMap (c : Codec) (w : NfPlainStateWriter) (op : Call) (B : Bytes) :
    (step c w op).1.db.data .IncarnationMap B = w.db.data .IncarnationMap B ∨
    ∃ original, op = .DeleteAccount B original ∧ 0 < original.Incarnation ∧
      (step c w op).1.db.data .IncarnationMap B = some (be64 original.Incarnation) := by
  have hr : ∀ A, (resolveOrCreate w.db A).1.data .IncarnationMap B
      = w.db.data .IncarnationMap B :=
    fun A => resolveOrCreate_data_ne w.db A (by decide) B
  cases op with
  | UpdateAccountData A o R =>
    left
    rcases UpdateAccountData_cases c w A o R with ⟨h, _⟩ | ⟨_, h, _⟩ | ⟨_, h, _⟩
    · simp only [step, h]
    · simp only [step, h, hr]
    · simp only [step, h]
      exact (DB.Put_data_ne _ _ _ (by decide) _).trans (hr A)
  | UpdateAccountCode A i hh code =>
    left
    rcases UpdateAccountCode_cases w A i hh code with ⟨h, _⟩ | ⟨_, h, _⟩ | ⟨_, h, _⟩
    · simp only [step, h]
    · simp only [step, h]
      exact DB.Put_data_ne _ _ _ (by decide) _
    · simp only [step, h]
      exact (DB.Put_data_ne _ _ _ (by decide) _).trans (DB.Put_data_ne _ _ _ (by decide) _)
  | DeleteAccount A o =>
    have hd : ((resolveOrCreate w.db A).1.Delete .PlainState
        (resolveOrCreate w.db A).2.1).1.data .IncarnationMap B
        = w.db.data .IncarnationMap B :=
      (DB.Delete_data_ne _ _ (by decide) _).trans (hr A)
    rcases DeleteAccount_cases w A o with
      ⟨h, _⟩ | ⟨_, h, _⟩ | ⟨_, _, h, _⟩ | ⟨_, _, _, h, _⟩ | ⟨_, _, hpos, h, _⟩
    · left; simp only [step, h]
    · left; simp only [step, h, hr]
    · left; simp only [step, h, hd]
    · left; simp only [step, h, hd]
    · simp only [step, h]
      rcases DB.Put_data_cases ((resolveOrCreate w.db A).1.Delete .PlainState
          (resolveOrCreate w.db A).2.1).1 .IncarnationMap A (be64 o.Incarnation)
          .IncarnationMap B with hp | ⟨_, hBA, hp⟩
      · left; exact hp.trans hd
      · right; exact ⟨o, by rw [hBA], hpos, hp⟩
  | WriteAccountStorage A i s o v =>
    left
    rcases WriteAccountStorage_cases w A i s o v with
      ⟨h, _⟩ | ⟨_, h, _⟩ | ⟨_, _, h, _⟩ | ⟨_, _, _, h, _⟩ | ⟨_, _, _, h, _⟩
    · simp only [step, h]
    · simp only [step, h]
    · simp only [step, h, hr]
    · simp only [step, h]
      exact (DB.Delete_data_ne _ _ (by decide) _).trans (hr A)
    · simp only [step, h]
      exact (DB.Put_data_ne _ _ _ (by decide) _).trans (hr A)
  | CreateContract A => left; simp only [step, CreateContract_db]

theorem step_incarnation_read (c : Codec) (w : NfPlainStateWriter) (op : Call) (B : Bytes)
    (hop : ∀ original, op ≠ .DeleteAccount B original) :
    ReadAccountIncarnation (step c w op).1.db B = ReadAccountIncarnation w.db B := by
  rcases step_incarnationMap c w op B with h | ⟨o, ho, _⟩
  · exact ReadAccountIncarnation_congr (step_getFault c w op) h
  · exact absurd ho (hop o)

theorem run_incarnation_read (c : Codec) (B : Bytes) (ops : List Call) :
    ∀ w : NfPlainStateWriter, (∀ op ∈ ops, ∀ original, op ≠ .DeleteAccount B original) →
      ReadAccountIncarnation (run c w ops).db B = ReadAccountIncarnation w.db B := by
  induction ops with
  | nil => intro w _; rfl
  | cons op ops ih =>
    intro w h
    exact (ih _ (fun op1 h1 => h op1 (List.mem_cons_of_mem _ h1))).trans
      (step_incarnation_read c w op B (h op (List.mem_cons_self _ _)))

theorem ReadAccountIncarnation_getFault {db : DB} {A : Bytes} {v : Nat}
    (h : ReadAccountIncarnation db A = some (v, none)) :
    db.getFault .IncarnationMap A = none := by
  cases hf : db.getFault .IncarnationMap A with
  | none => rfl
  | some e =>
    rw [ReadAccountIncarnation, DB.GetOne_fault hf] at h
    simp at h

/-- C14 (the tracked incarnation never decreases), refuted as stated. On the
empty store a deletion of `0xaa…aa` with incarnation 5 makes the tracked
incarnation 5; a second successful deletion of the same address with
incarnation 2 makes it 2. -/
theorem C14_tracked_incarnation_decreases :
    ReadAccountIncarnation (DeleteAccount emptyWriter addrA (sampleAccount 5)).1.db addrA
      = some (5, none) ∧
    (DeleteAccount (DeleteAccount emptyWriter addrA (sampleAccount 5)).1 addrA
      (sampleAccount 2)).2 = none ∧
    ReadAccountIncarnation
      (DeleteAccount (DeleteAccount emptyWriter addrA (sampleAccount 5)).1 addrA
        (sampleAccount 2)).1.db addrA = some (2, none) ∧
    ¬ ((5 : Nat) ≤ 2) := by
  decide

/-- C14 as amended. When `ReadAccountIncarnation` for `A` returns the value
`v` before a writer operation, it returns a value at least `v` after the
operation, provided the operation is not a `DeleteAccount` for `A` whose
positive incarnation is below `v` (the incarnation being a `uint64`):
`DeleteAccount` stores the incarnation it is given without comparing it
with the tracked one. -/
theorem C14_tracked_incarnation_monotone (c : Codec) (w : NfPlainStateWriter) (op : Call)
    (A : Bytes) (v : Nat)
    (hbefore : ReadAccountIncarnation w.db A = some (v, none))
    (hop : ∀ original, op = .DeleteAccount A original →
      original.Incarnation = 0 ∨ (v ≤ original.Incarnation ∧ original.Incarnation < 2 ^ 64)) :
    ∃ v1, ReadAccountIncarnation (step c w op).1.db A = some (v1, none) ∧ v ≤ v1 := by
  rcases step_incarnationMap c w op A with h | ⟨o, ho, hpos, hd⟩
  · exact ⟨v, (ReadAccountIncarnation_congr (step_getFault c w op) h).trans hbefore,
      le_refl v⟩
  · rcases hop o ho with h0 | ⟨hle, h64⟩
    · omega
    · refine ⟨o.Incarnation, ?_, hle⟩
      exact ReadAccountIncarnation_of_entry
        (by rw [step_getFault]; exact ReadAccountIncarnation_getFault hbefore) hd h64

/-- C14 instance: after a deletion with incarnation 5, a deletion of the
same address with incarnation 7. -/
theorem C14_tracked_incarnation_monotone_witness :
    ∃ v1, ReadAccountIncarnation
      (step sampleCodec (DeleteAccount emptyWriter addrA (sampleAccount 5)).1
        (.DeleteAccount addrA (sampleAccount 7))).1.db addrA = some (v1, none) ∧ 5 ≤ v1 :=
  C14_tracked_incarnation_monotone sampleCodec
    (DeleteAccount emptyWriter addrA (sampleAccount 5)).1
    (.DeleteAccount addrA (sampleAccount 7)) addrA 5 (by decide)
    (fun original h => by
      have h7 : original = sampleAccount 7 := by
        injection h with _ h2
        exact h2.symm
      rw [h7]
      exact Or.inr ⟨by decide, by decide⟩)

/-- C15 (only the deletion path touches the incarnation table).
`UpdateAccountData`, `UpdateAccountCode`, `WriteAccountStorage` and
`CreateContract`, for any address and arguments and whether they succeed
or fail, leave the result of `ReadAccountIncarnation` for `B` as it was;
so does `DeleteAccount` for an address other than `B`. Starting from an
empty store, after any sequence of writer operations none of which is a
`DeleteAccount` for `B`, `ReadAccountIncarnation` for `B` returns 0 (the
get on the incarnation table is taken not to fail). -/
theorem C15_only_deletion_touches_incarnation (c : Codec) (w : NfPlainStateWriter)
    (B : Bytes) :
    (∀ A original R,
      ReadAccountIncarnation (UpdateAccountData c w A original R).1.db B
        = ReadAccountIncarnation w.db B) ∧
    (∀ A i h code,
      ReadAccountIncarnation (UpdateAccountCode w A i h code).1.db B
        = ReadAccountIncarnation w.db B) ∧
    (∀ A i s original value,
      ReadAccountIncarnation (WriteAccountStorage w A i s original value).1.db B
        = ReadAccountIncarnation w.db B) ∧
    (∀ A, ReadAccountIncarnation (CreateContract w A).1.db B
        = ReadAccountIncarnation w.db B) ∧
    (∀ A original, A ≠ B →
      ReadAccountIncarnation (DeleteAccount w A original).1.db B
        = ReadAccountIncarnation w.db B) ∧
    (w.db.IsEmpty → w.db.getFault .IncarnationMap B = none →
      ∀ ops : List Call, (∀ op ∈ ops, ∀ original, op ≠ .DeleteAccount B original) →
        ReadAccountIncarnation (run c w ops).db B = some (0, none)) := by
  refine ⟨?_, ?_, ?_, ?_, ?_, ?_⟩
  · intro A original R
    exact step_incarnation_read c w (.UpdateAccountData A original R) B
      (fun _ h => Call.noConfusion h)
  · intro A i h code
    exact step_incarnation_read c w (.UpdateAccountCode A i h code) B
      (fun _ h => Call.noConfusion h)
  · intro A i s original value
    exact step_incarnation_read c w (.WriteAccountStorage A i s original value) B
      (fun _ h => Call.noConfusion h)
  · intro A
    exact step_incarnation_read c w (.CreateContract A) B (fun _ h => Call.noConfusion h)
  · intro A original hne
    exact step_incarnation_read c w (.DeleteAccount A original) B
      (fun _ h => by injection h with h1 _; exact hne h1)
  · intro hempty hget ops hops
    rw [run_incarnation_read c B ops w hops]
    unfold ReadAccountIncarnation
    rw [DB.GetOne_ok hget, hempty.1]
    rfl

/-- C15 instance: on the empty store `0xbb…bb` receives an account and a
storage write while `0xaa…aa` is deleted with incarnation 3; the tracked
incarnation of `0xbb…bb` is 0. -/
theorem C15_only_deletion_touches_incarnation_witness :
    ReadAccountIncarnation
      (run sampleCodec emptyWriter
        [.UpdateAccountData addrB (sampleAccount 0) (sampleAccount 1),
         .WriteAccountStorage addrB 1 slot0 0 5,
         .DeleteAccount addrA (sampleAccount 3)]).db addrB = some (0, none) :=
  (C15_only_deletion_touches_incarnation sampleCodec emptyWriter addrB).2.2.2.2.2
    ⟨fun _ _ => rfl, fun _ => rfl⟩ rfl _
    (fun op hop original h => by
      rw [h] at hop
      simp [addrA, addrB] at hop)

/-! ## C17, C19: account records -/

theorem ReadAccountData_congr (c : Codec) {db db1 : DB} {B : Bytes}
    (hf : db1.getFault = db.getFault)
    (h1 : db1.data .AccountID B = db.data .AccountID B)
    (h2 : db1.data .PlainState (bytesOf (db.data .AccountID B))
      = db.data .PlainState (bytesOf (db.data .AccountID B))) :
    ReadAccountData c db1 B = ReadAccountData c db B := by
  unfold ReadAccountData DB.GetOne
  rw [hf, h1]
  cases db.getFault .AccountID B with
  | some e => rfl
  | none =>
    simp only
    cases db.getFault .PlainState (bytesOf (db.data .AccountID B)) with
    | some e => rfl
    | none => simp only [h2]

theorem RegistryStep.other {db db1 : DB} {A B : Bytes} (h : RegistryStep db db1 A)
    (hne : B ≠ A) : db1.data .AccountID B = db.data .AccountID B := by
  rcases h with ⟨hd, _⟩ | ⟨_, _, hd | hd⟩
  · rw [hd]
  · rw [hd]
  · rw [hd]; simp [hne]

theorem RegistryStep.seq_le {db db1 : DB} {A : Bytes} (h : RegistryStep db db1 A) :
    db1.seq .AccountID ≤ db.seq .AccountID + 1 := by
  rcases h with ⟨_, hs⟩ | ⟨_, hs, _⟩ <;> omega

/-- Under the registry invariant and before the sequence wraps around, two
addresses with the same identifier are the same address, and identifiers
have eight bytes. -/
theorem RegistryInv.distinct {db : DB} (hinv : RegistryInv db)
    (hseq : db.seq .AccountID ≤ 2 ^ 64) :
    (∀ A B id, db.data .AccountID A = some id → db.data .AccountID B = some id → A = B) ∧
    (∀ A id, db.data .AccountID A = some id → id.length = 8) := by
  obtain ⟨g, hg, hinj⟩ := hinv
  constructor
  · intro A B id hA hB
    obtain ⟨hlA, hiA⟩ := hg A id hA
    obtain ⟨hlB, hiB⟩ := hg B id hB
    exact hinj A B id id hA hB
      (be64_inj (lt_of_lt_of_le hlA hseq) (lt_of_lt_of_le hlB hseq) (hiA.symm.trans hiB))
  · intro A id hA
    rw [(hg A id hA).2]
    exact be64_length _

/-- A fresh identifier is the encoding of the current sequence value. -/
theorem resolveOrCreate_fresh {db : DB} {A : Bytes} (hn : db.data .AccountID A = none)
    (hok : (resolveOrCreate db A).2.2 = none) :
    (resolveOrCreate db A).2.1 = be64 (db.seq .AccountID) := by
  rcases resolveOrCreate_cases db A with ⟨e, h⟩ | ⟨id, _, hd, _⟩ | ⟨_, e, h⟩ | ⟨_, _, h⟩
  · rw [h] at hok; exact Option.noConfusion hok
  · rw [hn] at hd; exact Option.noConfusion hd
  · rw [h] at hok; exact Option.noConfusion hok
  · rw [h]

/-- The plain-state entries that `UpdateAccountData` or `DeleteAccount` for
`A` may change, whatever the outcome: only the entry under the identifier
the registry block returned for `A`. -/
theorem account_write_plain_frame (c : Codec) (w : NfPlainStateWriter) (A : Bytes)
    (original R : Account) (k : Bytes) :
    ((UpdateAccountData c w A original R).1.db.data .PlainState k = w.db.data .PlainState k ∨
      ((resolveOrCreate w.db A).2.2 = none ∧ k = (resolveOrCreate w.db A).2.1)) ∧
    ((DeleteAccount w A original).1.db.data .PlainState k = w.db.data .PlainState k ∨
      ((resolveOrCreate w.db A).2.2 = none ∧ k = (resolveOrCreate w.db A).2.1)) := by
  have hr : (resolveOrCreate w.db A).1.data .PlainState k = w.db.data .PlainState k :=
    resolveOrCreate_data_ne w.db A (by decide) k
  by_cases hk : k = (resolveOrCreate w.db A).2.1
  · constructor
    · rcases UpdateAccountData_cases c w A original R with ⟨h, _⟩ | ⟨_, h, _⟩ | ⟨hok, _, _⟩
      · left; rw [h]
      · left; rw [h, hr]
      · right; exact ⟨hok, hk⟩
    · rcases DeleteAccount_cases w A original with
        ⟨h, _⟩ | ⟨_, h, _⟩ | ⟨hok, _⟩ | ⟨hok, _⟩ | ⟨hok, _⟩
      · left; rw [h]
      · left; rw [h, hr]
      · right; exact ⟨hok, hk⟩
      · right; exact ⟨hok, hk⟩
      · right; exact ⟨hok, hk⟩
  · have hd : ((resolveOrCreate w.db A).1.Delete .PlainState
        (resolveOrCreate w.db A).2.1).1.data .PlainState k = w.db.data .PlainState k :=
      (DB.Delete_data_key_ne _ _ hk).trans hr
    constructor
    · left
      rcases UpdateAccountData_cases c w A original R with ⟨h, _⟩ | ⟨_, h, _⟩ | ⟨_, h, _⟩
      · rw [h]
      · rw [h, hr]
      · rw [h]; exact (DB.Put_data_key_ne _ _ _ hk).trans hr
    · left
      rcases DeleteAccount_cases w A original with
        ⟨h, _⟩ | ⟨_, h, _⟩ | ⟨_, _, h, _⟩ | ⟨_, _, _, h, _⟩ | ⟨_, _, _, h, _⟩
      · rw [h]
      · rw [h, hr]
      · rw [h, hd]
      · rw [h, hd]
      · rw [h]; exact (DB.Put_data_ne _ _ _ (by decide) _).trans hd

/-- C17 (deletion removes the account record but keeps the identifier).
After a successful `DeleteAccount` for `A`, the address has an entry in
`kv.AccountID`, which is the entry it had before or, when it had none, the
encoding of the sequence value at the time of the call, and
`ReadAccountData` for `A` returns absent with no error (the gets on the
plain-state table are taken not to fail). -/
theorem C17_delete_keeps_identifier (c : Codec) (w : NfPlainStateWriter) (A : Bytes)
    (original : Account) (hget : ∀ k, w.db.getFault .PlainState k = none)
    (hok : (DeleteAccount w A original).2 = none) :
    (∃ id, (DeleteAccount w A original).1.db.data .AccountID A = some id ∧
      (w.db.data .AccountID A = some id ∨
        (w.db.data .AccountID A = none ∧ id = be64 (w.db.seq .AccountID)))) ∧
    ReadAccountData c (DeleteAccount w A original).1.db A = (none, none) := by
  have hgf := step_getFault c w (.DeleteAccount A original)
  simp only [step] at hgf
  have key : (resolveOrCreate w.db A).2.2 = none ∧
      (DeleteAccount w A original).1.db.data .AccountID A
        = (resolveOrCreate w.db A).1.data .AccountID A ∧
      (DeleteAccount w A original).1.db.data .PlainState (resolveOrCreate w.db A).2.1
        = none := by
    rcases DeleteAccount_cases w A original with
      ⟨_, h2⟩ | ⟨h1, _, h2⟩ | ⟨_, h1, _, h2⟩ | ⟨hr, hd, _, h, _⟩ | ⟨hr, hd, _, h, h2⟩
    · exact absurd hok h2
    · rw [hok] at h2; exact absurd h2.symm h1
    · rw [hok] at h2; exact absurd h2.symm h1
    · rw [h]
      exact ⟨hr, DB.Delete_data_ne _ _ (by decide) _, DB.Delete_data_self hd⟩
    · rw [h]
      exact ⟨hr, (DB.Put_data_ne _ _ _ (by decide) _).trans (DB.Delete_data_ne _ _ (by decide) _),
        (DB.Put_data_ne _ _ _ (by decide) _).trans (DB.Delete_data_self hd)⟩
  obtain ⟨hr, hA, hP⟩ := key
  obtain ⟨hid, hgA⟩ := resolveOrCreate_ok hr
  rw [hid] at hA
  constructor
  · refine ⟨(resolveOrCreate w.db A).2.1, hA, ?_⟩
    cases hd : w.db.data .AccountID A with
    | none => right; exact ⟨rfl, resolveOrCreate_fresh hd hr⟩
    | some id0 => left; rw [(resolveOrCreate_known hd).2 hr]
  · unfold ReadAccountData
    rw [DB.GetOne_ok (by rw [hgf]; exact hgA), hA]
    simp only [bytesOf, Option.getD_some]
    rw [DB.GetOne_ok (by rw [hgf]; exact hget _), hP]
    rfl

/-- C17 instance: an account is written for `0xaa…aa` on the empty store and
then deleted. -/
theorem C17_delete_keeps_identifier_witness :
    (∃ id, (DeleteAccount
        (UpdateAccountData sampleCodec emptyWriter addrA (sampleAccount 0) (sampleAccount 1)).1
        addrA (sampleAccount 1)).1.db.data .AccountID addrA = some id ∧
      ((UpdateAccountData sampleCodec emptyWriter addrA (sampleAccount 0)
          (sampleAccount 1)).1.db.data .AccountID addrA = some id ∨
        ((UpdateAccountData sampleCodec emptyWriter addrA (sampleAccount 0)
          (sampleAccount 1)).1.db.data .AccountID addrA = none ∧
          id = be64 ((UpdateAccountData sampleCodec emptyWriter addrA (sampleAccount 0)
            (sampleAccount 1)).1.db.seq .AccountID)))) ∧
    ReadAccountData sampleCodec (DeleteAccount
        (UpdateAccountData sampleCodec emptyWriter addrA (sampleAccount 0) (sampleAccount 1)).1
        addrA (sampleAccount 1)).1.db addrA = (none, none) :=
  C17_delete_keeps_identifier sampleCodec
    (UpdateAccountData sampleCodec emptyWriter addrA (sampleAccount 0) (sampleAccount 1)).1
    addrA (sampleAccount 1) (fun _ => rfl) (by decide)

/-- The account record read for `B` is not affected by what the registry
block and the plain-state write do for another address `A`, in a store
whose identifiers are pairwise distinct and eight bytes long. -/
theorem account_write_read_other (c : Codec) (w : NfPlainStateWriter) (A B : Bytes)
    (res : DB) (hr : Reachable c w) (hseq : w.db.seq .AccountID < 2 ^ 64) (hne : A ≠ B)
    (hgf : res.getFault = w.db.getFault)
    (hreg : RegistryStep w.db res A)
    (hplain : ∀ k, res.data .PlainState k = w.db.data .PlainState k ∨
      ((resolveOrCreate w.db A).2.2 = none ∧ k = (resolveOrCreate w.db A).2.1)) :
    ReadAccountData c res B = ReadAccountData c w.db B := by
  refine ReadAccountData_congr c hgf (hreg.other (Ne.symm hne)) ?_
  rcases hplain (bytesOf (w.db.data .AccountID B)) with h | ⟨hok, hk⟩
  · exact h
  · exfalso
    have hstep := resolveOrCreate_registry w.db A
    have hinv1 : RegistryInv (resolveOrCreate w.db A).1 := hr.registryInv.step hstep
    have hseq1 : (resolveOrCreate w.db A).1.seq .AccountID ≤ 2 ^ 64 := by
      have := hstep.seq_le
      omega
    obtain ⟨hdist, hlen⟩ := hinv1.distinct hseq1
    have hA := (resolveOrCreate_ok hok).1
    cases hB : w.db.data .AccountID B with
    | none =>
      have h8 := hlen A _ hA
      rw [← hk, hB] at h8
      simp [bytesOf] at h8
    | some idB =>
      have hB1 : (resolveOrCreate w.db A).1.data .AccountID B = some idB :=
        (resolveOrCreate_data_other w.db (Ne.symm hne)).trans hB
      rw [hB] at hk
      simp only [bytesOf, Option.getD_some] at hk
      rw [hk] at hB1
      exact hne (hdist A B _ hA hB1)

/-- C19 (account writes do not interfere across addresses). In every writer
state reachable from an empty store whose `kv.AccountID` sequence has not
handed out its last 64-bit value (so that the values it returns are
strictly increasing), for addresses `A ≠ B`, `UpdateAccountData` and
`DeleteAccount` for `A` leave the result of `ReadAccountData` for `B`
exactly as it was before the call; this holds when the call succeeds and
also when it fails. -/
theorem C19_account_writes_do_not_interfere (c : Codec) (w : NfPlainStateWriter)
    (A B : Bytes) (original R : Account) (hr : Reachable c w)
    (hseq : w.db.seq .AccountID < 2 ^ 64) (hne : A ≠ B) :
    ReadAccountData c (UpdateAccountData c w A original R).1.db B = ReadAccountData c w.db B ∧
    ReadAccountData c (DeleteAccount w A original).1.db B = ReadAccountData c w.db B := by
  constructor
  · exact account_write_read_other c w A B _ hr hseq hne
      (step_getFault c w (.UpdateAccountData A original R))
      (UpdateAccountData_registry c w A original R)
      (fun k => (account_write_plain_frame c w A original R k).1)
  · exact account_write_read_other c w A B _ hr hseq hne
      (step_getFault c w (.DeleteAccount A original))
      (DeleteAccount_registry w A original)
      (fun k => (account_write_plain_frame c w A original R k).2)

/-- C19 instance: `0xbb…bb` holds an account; an account write and a deletion
for `0xaa…aa` leave its record readable as before. -/
theorem C19_account_writes_do_not_interfere_witness :
    ReadAccountData sampleCodec
      (UpdateAccountData sampleCodec emptyWriter addrB (sampleAccount 0) (sampleAccount 1)).1.db
      addrB = (some (sampleAccount 1), none) ∧
    (ReadAccountData sampleCodec
        (UpdateAccountData sampleCodec
          (UpdateAccountData sampleCodec emptyWriter addrB (sampleAccount 0)
            (sampleAccount 1)).1 addrA (sampleAccount 0) (sampleAccount 2)).1.db addrB
      = ReadAccountData sampleCodec
        (UpdateAccountData sampleCodec emptyWriter addrB (sampleAccount 0)
          (sampleAccount 1)).1.db addrB ∧
     ReadAccountData sampleCodec
        (DeleteAccount
          (UpdateAccountData sampleCodec emptyWriter addrB (sampleAccount 0)
            (sampleAccount 1)).1 addrA (sampleAccount 0)).1.db addrB
      = ReadAccountData sampleCodec
        (UpdateAccountData sampleCodec emptyWriter addrB (sampleAccount 0)
          (sampleAccount 1)).1.db addrB) :=
  ⟨by rfl,
    C19_account_writes_do_not_interfere sampleCodec
      (UpdateAccountData sampleCodec emptyWriter addrB (sampleAccount 0) (sampleAccount 1)).1
      addrA addrB (sampleAccount 0) (sampleAccount 2)
      (Reachable.step emptyWriter (.UpdateAccountData addrB (sampleAccount 0) (sampleAccount 1))
        (Reachable.init emptyWriter ⟨fun _ _ => rfl, fun _ => rfl⟩))
      (by decide) (by decide)⟩

/-! ## C16: storage keys -/

theorem copy_length (dst src : Bytes) : (copy dst src).length = dst.length := by
  simp only [copy, List.length_append, List.length_take, List.length_drop]
  omega

theorem onTail_length (b : Bytes) (off : Nat) (f : Bytes → Bytes)
    (hf : ∀ t, (f t).length = t.length) : (onTail b off f).length = b.length := by
  simp only [onTail, List.length_append, List.length_take, hf, List.length_drop]
  omega

theorem writerCompositeKey_length (id : Bytes) (i : Nat) (key : Bytes) :
    (writerCompositeKey id i key).length = 48 := by
  have h1 : ∀ t : Bytes, (copy t key).length = t.length := fun t => copy_length t key
  have h2 : ∀ t : Bytes, (PutUint64 t i).length = t.length := fun t => copy_length t (be64 i)
  show (onTail (onTail (copy (make (8 + IncarnationLength + HashLength)) id) 8
    (fun t => PutUint64 t i)) (8 + IncarnationLength) (fun t => copy t key)).length = 48
  rw [onTail_length _ _ _ h1, onTail_length _ _ _ h2, copy_length]
  rfl

/-- In a store that satisfies the registry invariant and whose sequence has
not wrapped around, the identifier table is injective with eight-byte
identifiers and the current sequence value is not in use. -/
theorem RegistryInv.storage_preconditions {db : DB} (hinv : RegistryInv db)
    (hseq : db.seq .AccountID < 2 ^ 64) :
    (∀ B C idB idC, B ≠ C → db.data .AccountID B = some idB →
      db.data .AccountID C = some idC → idB ≠ idC) ∧
    (∀ B id, db.data .AccountID B = some id → id.length = 8) ∧
    (∀ B id, db.data .AccountID B = some id → id ≠ be64 (db.seq .AccountID)) := by
  obtain ⟨hdist, hlen⟩ := hinv.distinct (Nat.le_of_lt hseq)
  refine ⟨?_, hlen, ?_⟩
  · intro B C idB idC hne hB hC heq
    rw [← heq] at hC
    exact hne (hdist B C idB hB hC)
  · intro B id hB heq
    obtain ⟨g, hg, _⟩ := hinv
    obtain ⟨hlt, hid⟩ := hg B id hB
    rw [hid] at heq
    have := be64_inj (lt_trans hlt hseq) hseq heq
    omega

/-- The registry block keeps the identifier table injective with eight-byte
identifiers, provided the current sequence value is not yet in use. -/
theorem RegistryStep.table {db db1 : DB} {A : Bytes} (hstep : RegistryStep db db1 A)
    (hinj : ∀ B C idB idC, B ≠ C → db.data .AccountID B = some idB →
      db.data .AccountID C = some idC → idB ≠ idC)
    (hlen : ∀ B id, db.data .AccountID B = some id → id.length = 8)
    (hfresh : ∀ B id, db.data .AccountID B = some id → id ≠ be64 (db.seq .AccountID)) :
    (∀ B C id, db1.data .AccountID B = some id → db1.data .AccountID C = some id → B = C) ∧
    (∀ B id, db1.data .AccountID B = some id → id.length = 8) := by
  have hsame : (∀ B C id, db.data .AccountID B = some id → db.data .AccountID C = some id →
      B = C) := by
    intro B C id hB hC
    by_contra hne
    exact hinj B C id id hne hB hC rfl
  rcases hstep with ⟨hd, _⟩ | ⟨_, _, hd | hd⟩
  · rw [hd]; exact ⟨hsame, hlen⟩
  · rw [hd]; exact ⟨hsame, hlen⟩
  · rw [hd]
    constructor
    · intro B C id hB hC
      by_cases hBA : B = A <;> by_cases hCA : C = A
      · rw [hBA, hCA]
      · simp only [hBA, hCA, if_true, if_false] at hB hC
        exact absurd (Option.some.inj hB).symm (hfresh C id hC)
      · simp only [hBA, hCA, if_true, if_false] at hB hC
        exact absurd (Option.some.inj hC).symm (hfresh B id hB)
      · simp only [hBA, hCA, if_false] at hB hC
        exact hsame B C id hB hC
    · intro B id hB
      by_cases hBA : B = A
      · simp only [hBA, if_true] at hB
        rw [← Option.some.inj hB]
        exact be64_length _
      · simp only [hBA, if_false] at hB
        exact hlen B id hB

/-- A successful `WriteAccountStorage` changes no plain-state entry other
than the one under the composite key of its arguments. -/
theorem WriteAccountStorage_plain_frame (w : NfPlainStateWriter) (A : Bytes) (i : Nat)
    (s : Bytes) (original value : Nat)
    (hok : (WriteAccountStorage w A i s original value).2 = none) (k : Bytes)
    (hk : (WriteAccountStorage w A i s original value).1.db.data .PlainState k
      ≠ w.db.data .PlainState k) :
    ∃ idA, (WriteAccountStorage w A i s original value).1.db.data .AccountID A = some idA ∧
      k = writerCompositeKey idA i s := by
  have hr0 : (resolveOrCreate w.db A).1.data .PlainState k = w.db.data .PlainState k :=
    resolveOrCreate_data_ne w.db A (by decide) k
  rcases WriteAccountStorage_cases w A i s original value with
    ⟨_, h2⟩ | ⟨_, h, _⟩ | ⟨_, h1, _, h2⟩ | ⟨_, hr, _, h, _⟩ | ⟨_, hr, _, h, _⟩
  · exact absurd hok h2
  · rw [h] at hk; exact absurd rfl hk
  · rw [hok] at h2; exact absurd h2.symm h1
  · refine ⟨(resolveOrCreate w.db A).2.1, ?_, ?_⟩
    · rw [h]
      exact (DB.Delete_data_ne _ _ (by decide) _).trans (resolveOrCreate_ok hr).1
    · by_contra hne
      rw [h] at hk
      exact hk ((DB.Delete_data_key_ne _ _ hne).trans hr0)
  · refine ⟨(resolveOrCreate w.db A).2.1, ?_, ?_⟩
    · rw [h]
      exact (DB.Put_data_ne _ _ _ (by decide) _).trans (resolveOrCreate_ok hr).1
    · by_contra hne
      rw [h] at hk
      exact hk ((DB.Put_data_key_ne _ _ _ hne).trans hr0)

/-- C16 (storage keys are collision-free), refuted as stated. In the store of
`staleSeqWriter` the table `kv.AccountID` is injective with an eight-byte
identifier: `0xbb…bb` holds the identifier 0. The sequence is still at 0, so
a successful `WriteAccountStorage` for the new address `0xaa…aa` gives it the
identifier 0 as well, and the storage entry of `0xbb…bb` at incarnation 1
and the all-zero slot changes from `[9]` to `[5]`. -/
theorem C16_stale_sequence_overwrites_other_address :
    (∀ B C idB idC, B ≠ C → staleSeqWriter.db.data .AccountID B = some idB →
      staleSeqWriter.db.data .AccountID C = some idC → idB ≠ idC) ∧
    (∀ B id, staleSeqWriter.db.data .AccountID B = some id → id.length = 8) ∧
    addrB ≠ addrA ∧
    staleSeqWriter.db.data .AccountID addrB = some (be64 0) ∧
    staleSeqWriter.db.data .PlainState (be64 0 ++ be64 1 ++ slot0) = some [9] ∧
    (WriteAccountStorage staleSeqWriter addrA 1 slot0 0 5).2 = none ∧
    (WriteAccountStorage staleSeqWriter addrA 1 slot0 0 5).1.db.data .AccountID addrB
      = some (be64 0) ∧
    (WriteAccountStorage staleSeqWriter addrA 1 slot0 0 5).1.db.data .PlainState
      (be64 0 ++ be64 1 ++ slot0) = some [5] := by
  have hB : ∀ B id, staleSeqWriter.db.data .AccountID B = some id →
      B = addrB ∧ id = be64 0 := by
    intro B id h
    by_cases hBb : B = addrB
    · rw [hBb] at h
      exact ⟨hBb, (Option.some.inj h).symm⟩
    · simp [staleSeqWriter, hBb] at h
  refine ⟨?_, ?_, by decide, by decide, by decide, by decide, by decide, by decide⟩
  · intro B C idB idC hne h1 h2
    exact absurd ((hB B idB h1).1.trans (hB C idC h2).1.symm) hne
  · intro B id h
    rw [(hB B id h).2]
    rfl

/-- C16 as amended. In every store whose `kv.AccountID` table is injective
with eight-byte identifiers and whose current sequence value is not yet one
of the stored identifiers, a successful `WriteAccountStorage` for `A`, a
`uint64` incarnation `i` and a 32-byte slot `s` changes no plain-state
entry other than the one under the identifier of `A` followed by
big-endian `i` followed by `s`; the entry under the key of any other
(address, incarnation, slot) triple and every account record keep their
values. -/
theorem C16_storage_keys_collision_free (w : NfPlainStateWriter) (A : Bytes) (i : Nat)
    (s : Bytes) (original value : Nat) (hi : i < 2 ^ 64) (hs : s.length = 32)
    (hinj : ∀ B C idB idC, B ≠ C → w.db.data .AccountID B = some idB →
      w.db.data .AccountID C = some idC → idB ≠ idC)
    (hlen : ∀ B id, w.db.data .AccountID B = some id → id.length = 8)
    (hfresh : ∀ B id, w.db.data .AccountID B = some id → id ≠ be64 (w.db.seq .AccountID))
    (hok : (WriteAccountStorage w A i s original value).2 = none) :
    (∀ k, (WriteAccountStorage w A i s original value).1.db.data .PlainState k
        ≠ w.db.data .PlainState k →
      ∃ idA, (WriteAccountStorage w A i s original value).1.db.data .AccountID A = some idA ∧
        k = idA ++ be64 i ++ s) ∧
    (∀ B idB j s1,
      (WriteAccountStorage w A i s original value).1.db.data .AccountID B = some idB →
      j < 2 ^ 64 → s1.length = 32 → (B ≠ A ∨ j ≠ i ∨ s1 ≠ s) →
      (WriteAccountStorage w A i s original value).1.db.data .PlainState (idB ++ be64 j ++ s1)
        = w.db.data .PlainState (idB ++ be64 j ++ s1)) ∧
    (∀ B idB,
      (WriteAccountStorage w A i s original value).1.db.data .AccountID B = some idB →
      (WriteAccountStorage w A i s original value).1.db.data .PlainState idB
        = w.db.data .PlainState idB) := by
  obtain ⟨hdist, hlen1⟩ :=
    (WriteAccountStorage_registry w A i s original value).table hinj hlen hfresh
  have h1 : ∀ k, (WriteAccountStorage w A i s original value).1.db.data .PlainState k
      ≠ w.db.data .PlainState k →
      ∃ idA, (WriteAccountStorage w A i s original value).1.db.data .AccountID A = some idA ∧
        k = idA ++ be64 i ++ s := by
    intro k hk
    obtain ⟨idA, hA, hkey⟩ := WriteAccountStorage_plain_frame w A i s original value hok k hk
    exact ⟨idA, hA, by rw [hkey, writerCompositeKey_eq idA i s (hlen1 A idA hA) hs]⟩
  refine ⟨h1, ?_, ?_⟩
  · intro B idB j s1 hB hj hs1 hdiff
    by_contra hne
    obtain ⟨idA, hA, hkey⟩ := h1 _ hne
    rw [List.append_assoc, List.append_assoc] at hkey
    have hl : idB.length = idA.length := by rw [hlen1 B idB hB, hlen1 A idA hA]
    obtain ⟨hid, hrest⟩ := List.append_inj hkey hl
    obtain ⟨hbe, hss⟩ := List.append_inj hrest (by simp [be64_length])
    rw [← hid] at hA
    rcases hdiff with h | h | h
    · exact h (hdist B A idB hB hA)
    · exact h (be64_inj hj hi hbe)
    · exact h hss
  · intro B idB hB
    by_contra hne
    obtain ⟨idA, hA, hkey⟩ := h1 _ hne
    have hl := congrArg List.length hkey
    simp only [List.length_append, be64_length, hlen1 B idB hB, hlen1 A idA hA, hs] at hl
    omega

/-- C16 instance: on the store reached when `0xaa…aa` stored 9 at incarnation 3
under the all-zero slot, a write of 5 at incarnation 4 of the same slot
leaves the entry of incarnation 3 as it was. -/
theorem C16_storage_keys_collision_free_witness :
    (WriteAccountStorage (WriteAccountStorage emptyWriter addrA 3 slot0 0 9).1
        addrA 4 slot0 0 5).1.db.data .PlainState (be64 0 ++ be64 3 ++ slot0)
      = (WriteAccountStorage emptyWriter addrA 3 slot0 0 9).1.db.data .PlainState
        (be64 0 ++ be64 3 ++ slot0) :=
  (C16_storage_keys_collision_free (WriteAccountStorage emptyWriter addrA 3 slot0 0 9).1
    addrA 4 slot0 0 5 (by decide) (by decide)
    ((Reachable.step (c := sampleCodec) emptyWriter (.WriteAccountStorage addrA 3 slot0 0 9)
      (Reachable.init emptyWriter ⟨fun _ _ => rfl, fun _ => rfl⟩)).registryInv.storage_preconditions
      (by decide)).1
    ((Reachable.step (c := sampleCodec) emptyWriter (.WriteAccountStorage addrA 3 slot0 0 9)
      (Reachable.init emptyWriter ⟨fun _ _ => rfl, fun _ => rfl⟩)).registryInv.storage_preconditions
      (by decide)).2.1
    ((Reachable.step (c := sampleCodec) emptyWriter (.WriteAccountStorage addrA 3 slot0 0 9)
      (Reachable.init emptyWriter ⟨fun _ _ => rfl, fun _ => rfl⟩)).registryInv.storage_preconditions
      (by decide)).2.2
    (by decide)).2.1 addrA (be64 0) 3 slot0 (by decide) (by decide) (by decide)
    (Or.inr (Or.inl (by decide)))

/-! ## C11: the account of an address without identifier -/

theorem PlainKeysInv.of_data {db db1 : DB} (h : PlainKeysInv db)
    (hd : ∀ k, db1.data .PlainState k = db.data .PlainState k ∨
      db1.data .PlainState k = none ∨ k.length = 8 ∨ k.length = 48) :
    PlainKeysInv db1 := by
  intro k v hk
  rcases hd k with h1 | h1 | h1
  · rw [h1] at hk; exact h k v hk
  · rw [h1] at hk; exact Option.noConfusion hk
  · exact h1

theorem PlainKeysInv.put {db : DB} (h : PlainKeysInv db) (t : Table) (k v : Bytes)
    (hk : t = Table.PlainState → k.length = 8 ∨ k.length = 48) :
    PlainKeysInv (db.Put t k v).1 := by
  refine h.of_data (fun k1 => ?_)
  rcases DB.Put_data_cases db t k v .PlainState k1 with h1 | ⟨ht, hk1, _⟩
  · exact Or.inl h1
  · right; right
    rw [hk1]
    exact hk ht.symm

theorem PlainKeysInv.delete {db : DB} (h : PlainKeysInv db) (t : Table) (k : Bytes) :
    PlainKeysInv (db.Delete t k).1 := by
  refine h.of_data (fun k1 => ?_)
  rcases DB.Delete_data_cases db t k .PlainState k1 with h1 | h1
  · exact Or.inl h1
  · exact Or.inr (Or.inl h1)

theorem PlainKeysInv.resolve {db : DB} (h : PlainKeysInv db) (A : Bytes) :
    PlainKeysInv (resolveOrCreate db A).1 :=
  h.of_data (fun k => Or.inl (resolveOrCreate_data_ne db A (by decide) k))

/-- Under the registry invariant, the identifier the registry block returns
has eight bytes. -/
theorem resolveOrCreate_id_length {db : DB} {A : Bytes} (hinv : RegistryInv db)
    (hok : (resolveOrCreate db A).2.2 = none) : (resolveOrCreate db A).2.1.length = 8 := by
  obtain ⟨g, hg, _⟩ := hinv.step (resolveOrCreate_registry db A)
  rw [(hg A _ (resolveOrCreate_ok hok).1).2]
  exact be64_length _

/-- Every writer operation, whatever its outcome, keeps the keys of the
plain-state table at eight or 48 bytes. -/
theorem step_plainKeys (c : Codec) (w : NfPlainStateWriter) (op : Call)
    (hinv : RegistryInv w.db) (hk : PlainKeysInv w.db) :
    PlainKeysInv (step c w op).1.db := by
  cases op with
  | UpdateAccountData A o R =>
    rcases UpdateAccountData_cases c w A o R with ⟨h, _⟩ | ⟨_, h, _⟩ | ⟨hok, h, _⟩
    · simp only [step, h]; exact hk
    · simp only [step, h]; exact hk.resolve A
    · simp only [step, h]
      exact (hk.resolve A).put _ _ _ (fun _ => Or.inl (resolveOrCreate_id_length hinv hok))
  | UpdateAccountCode A i hh code =>
    rcases UpdateAccountCode_cases w A i hh code with ⟨h, _⟩ | ⟨_, h, _⟩ | ⟨_, h, _⟩
    · simp only [step, h]; exact hk
    · simp only [step, h]
      exact hk.put _ _ _ (fun ht => Table.noConfusion ht)
    · simp only [step, h]
      exact (hk.put _ _ _ (fun ht => Table.noConfusion ht)).put _ _ _
        (fun ht => Table.noConfusion ht)
  | DeleteAccount A o =>
    rcases DeleteAccount_cases w A o with
      ⟨h, _⟩ | ⟨_, h, _⟩ | ⟨_, _, h, _⟩ | ⟨_, _, _, h, _⟩ | ⟨_, _, _, h, _⟩
    · simp only [step, h]; exact hk
    · simp only [step, h]; exact hk.resolve A
    · simp only [step, h]; exact (hk.resolve A).delete _ _
    · simp only [step, h]; exact (hk.resolve A).delete _ _
    · simp only [step, h]
      exact ((hk.resolve A).delete _ _).put _ _ _ (fun ht => Table.noConfusion ht)
  | WriteAccountStorage A i s o v =>
    rcases WriteAccountStorage_cases w A i s o v with
      ⟨h, _⟩ | ⟨_, h, _⟩ | ⟨_, _, h, _⟩ | ⟨_, _, _, h, _⟩ | ⟨_, _, _, h, _⟩
    · simp only [step, h]; exact hk
    · simp only [step, h]; exact hk
    · simp only [step, h]; exact hk.resolve A
    · simp only [step, h]; exact (hk.resolve A).delete _ _
    · simp only [step, h]
      exact (hk.resolve A).put _ _ _ (fun _ => Or.inr (writerCompositeKey_length _ _ _))
  | CreateContract A => simp only [step, CreateContract_db]; exact hk

theorem Reachable.plainKeys {c : Codec} {w : NfPlainStateWriter} (h : Reachable c w) :
    PlainKeysInv w.db := by
  induction h with
  | init w he =>
    intro k v hk
    rw [he.1] at hk
    exact Option.noConfusion hk
  | step w op hr ih => exact step_plainKeys c w op hr.registryInv ih

/-- C11 (reading the account of a never-written address yields absent). In
every writer state reachable from an empty store by writer operations, for
every address `A` without entry in `kv.AccountID`, `ReadAccountData`
returns absent with no error: the reader looks the record up under the
empty key, and no plain-state entry is ever stored under it (the two gets
of the read are taken not to fail). -/
theorem C11_unwritten_account_reads_absent (c : Codec) (w : NfPlainStateWriter) (A : Bytes)
    (hr : Reachable c w) (hA : w.db.data .AccountID A = none)
    (hg1 : w.db.getFault .AccountID A = none) (hg2 : w.db.getFault .PlainState [] = none) :
    ReadAccountData c w.db A = (none, none) := by
  have hnil : w.db.data .PlainState [] = none := by
    cases hd : w.db.data .PlainState [] with
    | none => rfl
    | some v =>
      rcases hr.plainKeys [] v hd with h | h <;> simp at h
  unfold ReadAccountData
  rw [DB.GetOne_ok hg1, hA]
  simp only [bytesOf, Option.getD_none]
  rw [DB.GetOne_ok hg2, hnil]
  rfl

/-- C11 instance: `0xbb…bb` holds an account and a storage entry at
incarnation 0 under the all-zero slot; the account of `0xaa…aa`, which has
no identifier, reads absent. -/
theorem C11_unwritten_account_reads_absent_witness :
    ReadAccountData sampleCodec
      (run sampleCodec emptyWriter
        [.UpdateAccountData addrB (sampleAccount 0) (sampleAccount 1),
         .WriteAccountStorage addrB 0 slot0 0 42]).db addrA = (none, none) :=
  C11_unwritten_account_reads_absent sampleCodec _ addrA
    ((Reachable.init emptyWriter ⟨fun _ _ => rfl, fun _ => rfl⟩).run _)
    (by decide) (by decide) (by decide)

end NfPlainState
